import Mathlib

/-!
# K-means clustering (`k_means.cpp`): embedding and verification

The embedding follows `src/k_means.cpp` function by function.

* `long double` is modelled by exact rationals `ℚ`: rounding, overflow, infinities and NaN
  are outside the model.
* A distance `std::sqrt(sum)` is kept by its radicand, see `Dist`: square roots of
  nonnegative numbers compare as their radicands (`sqrt_lt_iff_radicand_lt`). The start
  value `std::numeric_limits<long double>::max()` of `min_dist` is the constructor
  `Dist.max`, which is above every square root, as it is above every finite
  `long double`.
* `std::vector` is `List`; an index outside the vector is undefined behaviour in C++ and is
  `none` here, so every function that indexes returns an `Option`.
* `for (int i = 0; i < n; ++i) body` is `forLoop n body`.
* `run_passes` is `run` with a record of the passes it executed; `run` is its last state.
* `recompute_centroid_checked`, `pass_checked`, `run_loop_checked` and
  `run_passes_checked` are the same functions with a division by zero undefined.
* `sq_sum_of`, `scan_step` and `nearest_by` are the loops of `get_nearest_cluster` over an
  arbitrary number type, used to compare the scan with and without `sqrt` over the reals.

The first part holds the embedding and the closed forms and invariants used in the
proofs (`assign_mid`, `pass_fn`, `Shape`, `Consistent`, `Reachable`, `objective`), the
second part the theorems.
-/

namespace KMeans

/-- The loop `for (int i = 0; i < n; ++i) st = body i st`, stopping with `none` as soon as
an iteration is undefined. -/
def forLoop {σ : Type} : Nat → (Nat → σ → Option σ) → σ → Option σ
  | 0, _, st => some st
  | n + 1, body, st => (forLoop n body st).bind (body n)

/-- Vector access `v[i]` with an `int` index. -/
def idx? {α : Type} (v : List α) (i : Int) : Option α :=
  if 0 ≤ i then v[i.toNat]? else none

/-- Class `Point`. -/
structure Point where
  name : String
  cluster_id : Int
  values : List ℚ
  deriving DecidableEq

/-- Constructor `Point(name, values)`: no cluster yet. -/
def Point.mk_new (name : String) (values : List ℚ) : Point :=
  { name := name, cluster_id := -1, values := values }

/-- Class `Cluster`. -/
structure Cluster where
  cluster_id : Int
  centroid_point : List ℚ
  points : List Point
  deriving DecidableEq

/-- Constructor `Cluster(cluster_id, centroid_point)`: no members. -/
def Cluster.mk_new (cluster_id : Int) (centroid_point : List ℚ) : Cluster :=
  { cluster_id := cluster_id, centroid_point := centroid_point, points := [] }

/-- Method `Cluster::add_point`: `points.push_back(p)`. -/
def Cluster.add_point (c : Cluster) (p : Point) : Cluster :=
  { c with points := c.points ++ [p] }

/-- The scan of `Cluster::remove_point`: erase the first element whose name is `name`,
then `break`. -/
def erase_first_named (name : String) : List Point → List Point
  | [] => []
  | q :: qs => if q.name = name then qs else q :: erase_first_named name qs

/-- Method `Cluster::remove_point`. -/
def Cluster.remove_point (c : Cluster) (p : Point) : Cluster :=
  { c with points := erase_first_named p.name c.points }

/-- Class `KMeanClustering`. -/
structure KMeanClustering where
  id : Int
  k : Int
  points : List Point
  clusters : List Cluster
  deriving DecidableEq

/-- Constructor `KMeanClustering(k, points)`: `id = 0`, no clusters. -/
def KMeanClustering.mk_new (k : Int) (points : List Point) : KMeanClustering :=
  { id := 0, k := k, points := points, clusters := [] }

/-- A `long double` distance as it occurs in `get_nearest_cluster`: the constant
`numeric_limits<long double>::max()` or `std::sqrt(sum)`, kept by its radicand `sum`. -/
inductive Dist where
  | max : Dist
  | sqrt (sum : ℚ) : Dist
  deriving DecidableEq

/-- The comparison `a < b` of two distances: square roots compare as their radicands do
(`sqrt_lt_iff_radicand_lt`), and every square root is below `max`. -/
def Dist.lt : Dist → Dist → Bool
  | Dist.sqrt a, Dist.sqrt b => decide (a < b)
  | Dist.sqrt _, Dist.max => true
  | Dist.max, _ => false

/-- The inner loop of `get_nearest_cluster` for cluster `i`: the sum over `j` of
`(p.values[j] - clusters[i].centroid_point[j])²`. -/
def sq_sum (s : KMeanClustering) (p : Point) (i : Nat) : Option ℚ :=
  forLoop p.values.length (fun j sum =>
    (p.values[j]?).bind fun pj =>
    (s.clusters[i]?).bind fun c =>
    (c.centroid_point[j]?).bind fun cj =>
    some (sum + (pj - cj) * (pj - cj))) 0

/-- One iteration of the outer loop of `get_nearest_cluster`; the loop state is
`(min_dist, nearest_cluster_id)`. -/
def nearest_step (s : KMeanClustering) (p : Point) (i : Nat) (st : Dist × Int) :
    Option (Dist × Int) :=
  (sq_sum s p i).bind fun sum =>
    if Dist.lt (Dist.sqrt sum) st.1 then some (Dist.sqrt sum, (i : Int)) else some st

/-- Method `KMeanClustering::get_nearest_cluster`. -/
def get_nearest_cluster (s : KMeanClustering) (p : Point) : Option Int :=
  (forLoop s.k.toNat (nearest_step s p) (Dist.max, -1)).map Prod.snd

/-- Method `KMeanClustering::init_clusters`. -/
def init_clusters (s : KMeanClustering) : Option KMeanClustering :=
  forLoop s.k.toNat (fun i st =>
    (st.points[i]?).bind fun p =>
    some (KMeanClustering.mk (st.id + 1) st.k st.points
      (st.clusters ++ [Cluster.mk_new st.id p.values]))) s

/-- The body of the assignment loop of `run` for point `i`; the loop state is the engine
and the flag `change`. -/
def assign_point (i : Nat) (st : KMeanClustering × Bool) : Option (KMeanClustering × Bool) :=
  (st.1.points[i]?).bind fun p =>
  (get_nearest_cluster st.1 p).bind fun new_id =>
    if new_id ≠ -1 then
      (if p.cluster_id ≠ -1 then
          (idx? st.1.clusters p.cluster_id).bind fun c =>
            some (st.1.clusters.set p.cluster_id.toNat (c.remove_point p))
        else some st.1.clusters).bind fun clusters1 =>
      (idx? clusters1 new_id).bind fun c =>
        some (KMeanClustering.mk st.1.id st.1.k
                (st.1.points.set i (Point.mk p.name new_id p.values))
                (clusters1.set new_id.toNat (c.add_point (Point.mk p.name new_id p.values))),
              true)
    else some st

/-- The totals `(total_x, total_y)` of the members of a cluster. -/
def totals (members : List Point) : Option (ℚ × ℚ) :=
  forLoop members.length (fun l t =>
    (members[l]?).bind fun q =>
    (q.values[0]?).bind fun x =>
    (q.values[1]?).bind fun y =>
    some (t.1 + x, t.2 + y)) (0, 0)

/-- The body of the centroid loop of `run` for cluster `i`. -/
def recompute_centroid (i : Nat) (s : KMeanClustering) : Option KMeanClustering :=
  (s.clusters[i]?).bind fun cluster =>
    if cluster.points.length = 0 then some s
    else (totals cluster.points).bind fun t =>
      some (KMeanClustering.mk s.id s.k s.points
        (s.clusters.set i (Cluster.mk cluster.cluster_id
          [t.1 / (cluster.points.length : ℚ), t.2 / (cluster.points.length : ℚ)]
          cluster.points)))

/-- One pass: the body of the `while` loop of `run` up to the test of `change`. It returns
the engine after the pass and the value of `change`. -/
def pass (s : KMeanClustering) : Option (KMeanClustering × Bool) :=
  (forLoop s.points.length assign_point (s, false)).bind fun st =>
  (forLoop s.k.toNat recompute_centroid st.1).bind fun s2 =>
    some (s2, st.2)

/-- The `while (iterations <= max_iterations)` loop of `run`. The result lists, for every
pass executed, the engine after the pass and its `change` flag. The first argument bounds
the number of passes still possible; `none` is an undefined pass (or a bound that was too
small, which `run` never gives). -/
def run_loop (max_iterations : Int) :
    Nat → Int → KMeanClustering → Option (List (KMeanClustering × Bool))
  | 0, iterations, _ => if iterations ≤ max_iterations then none else some []
  | fuel + 1, iterations, s =>
    if iterations ≤ max_iterations then
      (pass s).bind fun r =>
        if !r.2 then some [r]
        else (run_loop max_iterations fuel (iterations + 1) r.1).map fun rest => r :: rest
    else some []

/-- The passes of `run(max_iterations)`: `init_clusters`, then the loop from
`iterations = 0`. -/
def run_passes (s : KMeanClustering) (max_iterations : Int) :
    Option (KMeanClustering × List (KMeanClustering × Bool)) :=
  (init_clusters s).bind fun s0 =>
    (run_loop max_iterations (max_iterations + 1).toNat 0 s0).map fun tr => (s0, tr)

/-- Method `KMeanClustering::run`: the engine when `run` returns. -/
def run (s : KMeanClustering) (max_iterations : Int) : Option KMeanClustering :=
  (run_passes s max_iterations).map fun r =>
    match r.2.getLast? with
    | some last => last.1
    | none => r.1

/-- The sum of the squared coordinate differences of two coordinate vectors: the square of
their Euclidean distance. -/
def sq_dist (a b : List ℚ) : ℚ :=
  (List.zipWith (fun x y => (x - y) * (x - y)) a b).sum

/-- The point `p` with the `cluster_id` that `get_nearest_cluster` gives it against the
centroids of `s` (the assignment `p.cluster_id = new_nearest_clusted_id`). -/
def reassign (s : KMeanClustering) (p : Point) : Point :=
  Point.mk p.name ((get_nearest_cluster s p).getD (-1)) p.values

/-- The member list of cluster `c` when the assignment loop, started in `s`, has handled
the first `n` points: the members not yet handled, then the handled points now in `c`. -/
def members_mid (s : KMeanClustering) (n c : Nat) : List Point :=
  (s.points.drop n).filter (fun q => decide (q.cluster_id = (c : Int))) ++
    ((s.points.take n).map (reassign s)).filter (fun q => decide (q.cluster_id = (c : Int)))

/-- The member list of cluster `c` when the assignment loop has handled the first `n`
points and has removed point `n` from its old cluster, before adding it to the new one. -/
def members_removed (s : KMeanClustering) (n c : Nat) : List Point :=
  (s.points.drop (n + 1)).filter (fun q => decide (q.cluster_id = (c : Int))) ++
    ((s.points.take n).map (reassign s)).filter (fun q => decide (q.cluster_id = (c : Int)))

/-- The engine when the assignment loop, started in `s`, has handled the first `n`
points. -/
def assign_mid (s : KMeanClustering) (n : Nat) : KMeanClustering :=
  KMeanClustering.mk s.id s.k
    (s.points.mapIdx fun m q => if m < n then reassign s q else q)
    (s.clusters.mapIdx fun c cl => Cluster.mk cl.cluster_id cl.centroid_point (members_mid s n c))

/-- Coordinate `j` of a point (0 when the point has no such coordinate). -/
def coord (j : Nat) (q : Point) : ℚ := q.values.getD j 0

/-- The centroid update of one cluster: the mean of the first two coordinates of its
members, or the old centroid when it has no members. -/
def recentre (c : Cluster) : Cluster :=
  if c.points.length = 0 then c
  else Cluster.mk c.cluster_id
    [(c.points.map (coord 0)).sum / (c.points.length : ℚ),
     (c.points.map (coord 1)).sum / (c.points.length : ℚ)] c.points

/-- The engine after one pass from `s`, in closed form: every point carries its nearest
cluster, every cluster holds the points that carry its index, in input order, and has
its centroid updated. -/
def pass_fn (s : KMeanClustering) : KMeanClustering :=
  KMeanClustering.mk s.id s.k (s.points.map (reassign s))
    (s.clusters.mapIdx fun c cl => recentre (Cluster.mk cl.cluster_id cl.centroid_point
      ((s.points.map (reassign s)).filter (fun q => decide (q.cluster_id = (c : Int))))))

/-- The bookkeeping invariant of the engine between passes: there are `k` clusters, every
`cluster_id` of a point is `-1` or an index below `k`, and the member list of cluster `c`
is the sublist of the points whose `cluster_id` is `c`, in input order. -/
def Shape (s : KMeanClustering) : Prop :=
  s.clusters.length = s.k.toNat ∧
  (∀ p, p ∈ s.points → p.cluster_id = -1 ∨ (0 ≤ p.cluster_id ∧ p.cluster_id < s.k)) ∧
  (∀ c : Nat, c < s.clusters.length → (s.clusters[c]?).map (fun cl => cl.points)
    = some (s.points.filter (fun q => decide (q.cluster_id = (c : Int)))))

/-- The states of the engine between passes on two-coordinate input with `k ≥ 1`: the
bookkeeping invariant `Shape`, two-coordinate points and centroids with at least two
coordinates. -/
def Consistent (s : KMeanClustering) : Prop :=
  1 ≤ s.k ∧ Shape s ∧
  (∀ p, p ∈ s.points → p.values.length = 2) ∧
  (∀ c, c ∈ s.clusters → 2 ≤ c.centroid_point.length)

/-- The engine that `main` constructs from the input records `(name, values)`: every
point starts without a cluster. -/
def engine_of_input (k : Int) (input : List (String × List ℚ)) : KMeanClustering :=
  KMeanClustering.mk_new k (input.map fun r => Point.mk_new r.1 r.2)

/-- The engine after `m` passes in a row (the flag `change` is dropped). -/
def passes : Nat → KMeanClustering → Option KMeanClustering
  | 0, s => some s
  | m + 1, s => (passes m s).bind fun t => (pass t).map Prod.fst

/-- The engine states that a run can be in between passes: the state that
`init_clusters` leaves on the engine built from the input, and every state that a pass
leaves when started in such a state. -/
inductive Reachable : KMeanClustering → Prop where
  | init (k : Int) (input : List (String × List ℚ)) (s0 : KMeanClustering) :
      init_clusters (engine_of_input k input) = some s0 → Reachable s0
  | step (s : KMeanClustering) (r : KMeanClustering × Bool) :
      Reachable s → pass s = some r → Reachable r.1

/-- The engine in which pass number `j` (counted from 0) of a run started: the state
after `init_clusters` for the first pass, else the state that pass `j - 1` left. -/
def state_before (s0 : KMeanClustering) (tr : List (KMeanClustering × Bool)) (j : Nat) :
    KMeanClustering :=
  match j with
  | 0 => s0
  | j + 1 => match tr[j]? with
    | some r => r.1
    | none => s0

/-- A division `total / cluster_size` that is undefined when the divisor is zero. -/
def checked_div (total : ℚ) (cluster_size : Nat) : Option ℚ :=
  if cluster_size = 0 then none else some (total / (cluster_size : ℚ))

/-- The body of the centroid loop of `run` for cluster `i`, with the two divisions
checked: it is `recompute_centroid` except that a division by zero is undefined. -/
def recompute_centroid_checked (i : Nat) (s : KMeanClustering) : Option KMeanClustering :=
  (s.clusters[i]?).bind fun cluster =>
    if cluster.points.length = 0 then some s
    else (totals cluster.points).bind fun t =>
      (checked_div t.1 cluster.points.length).bind fun x =>
      (checked_div t.2 cluster.points.length).bind fun y =>
      some (KMeanClustering.mk s.id s.k s.points
        (s.clusters.set i (Cluster.mk cluster.cluster_id [x, y] cluster.points)))

/-- One pass with checked divisions. -/
def pass_checked (s : KMeanClustering) : Option (KMeanClustering × Bool) :=
  (forLoop s.points.length assign_point (s, false)).bind fun st =>
  (forLoop s.k.toNat recompute_centroid_checked st.1).bind fun s2 =>
    some (s2, st.2)

/-- The loop of `run` with checked divisions. -/
def run_loop_checked (max_iterations : Int) :
    Nat → Int → KMeanClustering → Option (List (KMeanClustering × Bool))
  | 0, iterations, _ => if iterations ≤ max_iterations then none else some []
  | fuel + 1, iterations, s =>
    if iterations ≤ max_iterations then
      (pass_checked s).bind fun r =>
        if !r.2 then some [r]
        else (run_loop_checked max_iterations fuel (iterations + 1) r.1).map fun rest =>
          r :: rest
    else some []

/-- The passes of `run(max_iterations)` with checked divisions. -/
def run_passes_checked (s : KMeanClustering) (max_iterations : Int) :
    Option (KMeanClustering × List (KMeanClustering × Bool)) :=
  (init_clusters s).bind fun s0 =>
    (run_loop_checked max_iterations (max_iterations + 1).toNat 0 s0).map fun tr => (s0, tr)

/-- The inner loop of `get_nearest_cluster` over an arbitrary number type: the sum over `j`
of `(values[j] - centroids[i][j])²` for the coordinate vectors `values` of the point and
`centroids[i]` of cluster `i`. -/
def sq_sum_of {α : Type} [Zero α] [Add α] [Sub α] [Mul α] (values : List α)
    (centroids : List (List α)) (i : Nat) : Option α :=
  forLoop values.length (fun j sum =>
    (values[j]?).bind fun pj =>
    (centroids[i]?).bind fun centroid =>
    (centroid[j]?).bind fun cj =>
    some (sum + (pj - cj) * (pj - cj))) 0

/-- One iteration of the outer loop of `get_nearest_cluster` over an arbitrary type of
distances: `dist i` is the distance to cluster `i` and `lt` the comparison
`dist < min_dist`; `min_dist` is `none` while it still holds
`numeric_limits<long double>::max()`. -/
def scan_step {δ : Type} (lt : δ → δ → Bool) (dist : Nat → Option δ) (i : Nat)
    (st : Option δ × Int) : Option (Option δ × Int) :=
  (dist i).bind fun d =>
    if (match st.1 with
        | none => true
        | some m => lt d m) then some (some d, (i : Int)) else some st

/-- The scan of `get_nearest_cluster` over `k` clusters for an arbitrary type of
distances. -/
def nearest_by {δ : Type} (lt : δ → δ → Bool) (dist : Nat → Option δ) (k : Nat) :
    Option Int :=
  (forLoop k (scan_step lt dist) (none, -1)).map Prod.snd

/-- The variant of `get_nearest_cluster` that compares the sums of the squared coordinate
differences directly, without taking the square root. -/
def get_nearest_cluster_squared (s : KMeanClustering) (p : Point) : Option Int :=
  nearest_by (fun a b : ℚ => decide (a < b))
    (sq_sum_of p.values (s.clusters.map fun c => c.centroid_point)) s.k.toNat

/-- The squared distance of a point to the centroid of the cluster indexed by its
`cluster_id` (0 when the `cluster_id` indexes no cluster). -/
def cost (clusters : List Cluster) (x : Point) : ℚ :=
  match idx? clusters x.cluster_id with
  | some c => sq_dist x.values c.centroid_point
  | none => 0

/-- The total within-cluster squared distance of an engine state: the sum over all points
of the squared Euclidean distance to the centroid of the point's cluster. -/
def objective (s : KMeanClustering) : ℚ :=
  (s.points.map (cost s.clusters)).sum

/-! ## Loops and the nearest-cluster query -/

theorem forLoop_succ {σ : Type} (n : Nat) (body : Nat → σ → Option σ) (st : σ) :
    forLoop (n + 1) body st = (forLoop n body st).bind (body n) := rfl

/-- Two loop bodies that agree on the first `n` indices give the same loop. -/
theorem forLoop_congr {σ : Type} (n : Nat) (f g : Nat → σ → Option σ) (st : σ)
    (h : ∀ i, i < n → ∀ x, f i x = g i x) : forLoop n f st = forLoop n g st := by
  induction n with
  | zero => rfl
  | succ n ih =>
    rw [forLoop_succ, forLoop_succ, ih (fun i hi x => h i (Nat.lt_succ_of_lt hi) x)]
    cases forLoop n g st with
    | none => rfl
    | some x => exact h n (Nat.lt_succ_self n) x

/-- Square roots of nonnegative rationals compare as their radicands: the order that
`Dist.lt` puts on `Dist.sqrt` values is the order of the real square roots. -/
theorem sqrt_lt_iff_radicand_lt (a b : ℚ) (ha : 0 ≤ a) :
    Real.sqrt (a : ℝ) < Real.sqrt (b : ℝ) ↔ a < b := by
  have ha' : (0 : ℝ) ≤ (a : ℝ) := by exact_mod_cast ha
  rw [Real.sqrt_lt_sqrt_iff ha']
  exact_mod_cast Iff.rfl

theorem sq_dist_nonneg (a b : List ℚ) : 0 ≤ sq_dist a b := by
  unfold sq_dist
  apply List.sum_nonneg
  intro x hx
  rw [List.mem_iff_getElem?] at hx
  obtain ⟨i, hi⟩ := hx
  rw [List.getElem?_zipWith_eq_some] at hi
  obtain ⟨u, v, _, _, rfl⟩ := hi
  exact mul_self_nonneg _

/-- The inner loop after `n ≤ p.values.length` iterations. -/
theorem sq_sum_loop (s : KMeanClustering) (p : Point) (i : Nat) (c : Cluster)
    (hc : s.clusters[i]? = some c) (hdim : p.values.length ≤ c.centroid_point.length)
    (n : Nat) (hn : n ≤ p.values.length) :
    forLoop n (fun j sum =>
      (p.values[j]?).bind fun pj =>
      (s.clusters[i]?).bind fun c =>
      (c.centroid_point[j]?).bind fun cj =>
      some (sum + (pj - cj) * (pj - cj))) 0
      = some ((List.zipWith (fun x y => (x - y) * (x - y)) p.values c.centroid_point).take n).sum := by
  induction n with
  | zero => simp [forLoop]
  | succ n ih =>
    have h1 : n < p.values.length := hn
    have h2 : n < c.centroid_point.length := lt_of_lt_of_le h1 hdim
    rw [forLoop_succ, ih (Nat.le_of_lt h1), List.take_succ, List.getElem?_zipWith]
    simp [hc, List.getElem?_eq_getElem h1, List.getElem?_eq_getElem h2]

/-- The inner loop of `get_nearest_cluster` computes the squared Euclidean distance. -/
theorem sq_sum_eq (s : KMeanClustering) (p : Point) (i : Nat) (c : Cluster)
    (hc : s.clusters[i]? = some c) (hdim : p.values.length ≤ c.centroid_point.length) :
    sq_sum s p i = some (sq_dist p.values c.centroid_point) := by
  unfold sq_sum
  rw [sq_sum_loop s p i c hc hdim _ (Nat.le_refl _)]
  have : (List.zipWith (fun x y => (x - y) * (x - y)) p.values c.centroid_point).length
      ≤ p.values.length := by simp
  rw [List.take_of_length_le this, sq_dist]

/-- The outer loop of `get_nearest_cluster` after `n` iterations, when the squared
distance to cluster `i` is `d i`: it holds the least index of a minimum of `d` below `n`. -/
theorem nearest_loop_spec (s : KMeanClustering) (p : Point) (d : Nat → ℚ) (n : Nat)
    (hd : ∀ i, i < n → sq_sum s p i = some (d i)) :
    (n = 0 ∧ forLoop n (nearest_step s p) (Dist.max, -1) = some (Dist.max, -1)) ∨
    (∃ i, i < n ∧ forLoop n (nearest_step s p) (Dist.max, -1) = some (Dist.sqrt (d i), (i : Int))
      ∧ (∀ j, j < n → d i ≤ d j) ∧ (∀ j, j < i → d i < d j)) := by
  induction n with
  | zero => exact Or.inl ⟨rfl, rfl⟩
  | succ n ih =>
    right
    have hn := hd n (Nat.lt_succ_self n)
    rcases ih (fun i hi => hd i (Nat.lt_succ_of_lt hi)) with ⟨h0, hl⟩ | ⟨i, hi, hl, hmin, hfirst⟩
    · subst h0
      refine ⟨0, Nat.zero_lt_one, ?_, ?_, ?_⟩
      · rw [forLoop_succ, hl]
        simp [nearest_step, hn, Dist.lt]
      · intro j hj
        have : j = 0 := by omega
        subst this
        exact le_refl _
      · intro j hj
        omega
    · by_cases hlt : d n < d i
      · refine ⟨n, Nat.lt_succ_self n, ?_, ?_, ?_⟩
        · rw [forLoop_succ, hl]
          simp [nearest_step, hn, Dist.lt, hlt]
        · intro j hj
          rcases Nat.lt_succ_iff_lt_or_eq.mp hj with h | h
          · exact le_trans (le_of_lt hlt) (hmin j h)
          · subst h
            exact le_refl _
        · intro j hj
          exact lt_of_lt_of_le hlt (hmin j hj)
      · refine ⟨i, Nat.lt_succ_of_lt hi, ?_, ?_, hfirst⟩
        · rw [forLoop_succ, hl]
          simp [nearest_step, hn, Dist.lt, hlt]
        · intro j hj
          rcases Nat.lt_succ_iff_lt_or_eq.mp hj with h | h
          · exact hmin j h
          · subst h
            exact not_lt.mp hlt

/-- With `k ≥ 1` clusters present and centroids at least as long as the point,
`get_nearest_cluster` returns the least index of a centroid at minimum squared distance. -/
theorem get_nearest_cluster_spec (s : KMeanClustering) (p : Point)
    (hk : 1 ≤ s.k) (hlen : s.k.toNat ≤ s.clusters.length)
    (hdim : ∀ c, c ∈ s.clusters → p.values.length ≤ c.centroid_point.length) :
    ∃ (i : Nat) (ci : Cluster), get_nearest_cluster s p = some (i : Int) ∧ i < s.k.toNat ∧
      s.clusters[i]? = some ci ∧
      (∀ (j : Nat) (cj : Cluster), j < s.k.toNat → s.clusters[j]? = some cj →
        sq_dist p.values ci.centroid_point ≤ sq_dist p.values cj.centroid_point) ∧
      (∀ (j : Nat) (cj : Cluster), j < i → s.clusters[j]? = some cj →
        sq_dist p.values ci.centroid_point < sq_dist p.values cj.centroid_point) := by
  have hd : ∀ i, i < s.k.toNat → sq_sum s p i
      = some (sq_dist p.values ((s.clusters[i]?.map (fun c => c.centroid_point)).getD [])) := by
    intro i hi
    have hi' : i < s.clusters.length := lt_of_lt_of_le hi hlen
    have hc : s.clusters[i]? = some s.clusters[i] := List.getElem?_eq_getElem hi'
    rw [sq_sum_eq s p i _ hc (hdim _ (List.getElem_mem hi')), hc]
    rfl
  rcases nearest_loop_spec s p _ s.k.toNat hd with ⟨h0, _⟩ | ⟨i, hi, hl, hmin, hfirst⟩
  · omega
  · have hi' : i < s.clusters.length := lt_of_lt_of_le hi hlen
    have hc : s.clusters[i]? = some s.clusters[i] := List.getElem?_eq_getElem hi'
    refine ⟨i, s.clusters[i], ?_, hi, hc, ?_, ?_⟩
    · simp [get_nearest_cluster, hl]
    · intro j cj hj hcj
      have := hmin j hj
      simpa [hc, hcj] using this
    · intro j cj hj hcj
      have := hfirst j hj
      simpa [hc, hcj] using this

/-- C2: for a point `p` and `k ≥ 1` clusters whose centroids have the dimension of `p`,
`get_nearest_cluster` returns the least index `i` in `[0, k)` whose centroid is at minimum
Euclidean distance from `p`: no centroid is nearer, and every centroid before `i` is
strictly farther. -/
theorem get_nearest_cluster_least_minimum (s : KMeanClustering) (p : Point)
    (hk : 1 ≤ s.k) (hlen : s.clusters.length = s.k.toNat)
    (hdim : ∀ c, c ∈ s.clusters → c.centroid_point.length = p.values.length) :
    ∃ (i : Nat) (ci : Cluster), get_nearest_cluster s p = some (i : Int) ∧
      0 ≤ (i : Int) ∧ (i : Int) < s.k ∧ s.clusters[i]? = some ci ∧
      (∀ (j : Nat) (cj : Cluster), s.clusters[j]? = some cj →
        Real.sqrt ((sq_dist p.values ci.centroid_point : ℚ) : ℝ)
          ≤ Real.sqrt ((sq_dist p.values cj.centroid_point : ℚ) : ℝ)) ∧
      (∀ (j : Nat) (cj : Cluster), j < i → s.clusters[j]? = some cj →
        Real.sqrt ((sq_dist p.values ci.centroid_point : ℚ) : ℝ)
          < Real.sqrt ((sq_dist p.values cj.centroid_point : ℚ) : ℝ)) := by
  obtain ⟨i, ci, hres, hi, hci, hmin, hfirst⟩ :=
    get_nearest_cluster_spec s p hk (le_of_eq hlen.symm) (fun c hc => le_of_eq (hdim c hc).symm)
  refine ⟨i, ci, hres, Int.natCast_nonneg i, by omega, hci, ?_, ?_⟩
  · intro j cj hcj
    have hj : j < s.k.toNat := by
      rw [← hlen]
      exact (List.getElem?_eq_some.mp hcj).1
    apply Real.sqrt_le_sqrt
    exact_mod_cast hmin j cj hj hcj
  · intro j cj hj hcj
    rw [sqrt_lt_iff_radicand_lt _ _ (sq_dist_nonneg _ _)]
    exact hfirst j cj hj hcj

/-- C2 at a concrete input: the point `(1, 0)` and the two centroids `(2, 0)`, `(0, 0)`,
both at distance 1. -/
theorem get_nearest_cluster_least_minimum_witness :
    ∃ (i : Nat) (ci : Cluster),
      get_nearest_cluster
        (KMeanClustering.mk 2 2 [] [Cluster.mk 0 [2, 0] [], Cluster.mk 1 [0, 0] []])
        (Point.mk "P" (-1) [1, 0]) = some (i : Int) ∧
      0 ≤ (i : Int) ∧ (i : Int) < 2 ∧
      [Cluster.mk 0 [2, 0] [], Cluster.mk 1 [0, 0] []][i]? = some ci ∧
      (∀ (j : Nat) (cj : Cluster), [Cluster.mk 0 [2, 0] [], Cluster.mk 1 [0, 0] []][j]? = some cj →
        Real.sqrt ((sq_dist [1, 0] ci.centroid_point : ℚ) : ℝ)
          ≤ Real.sqrt ((sq_dist [1, 0] cj.centroid_point : ℚ) : ℝ)) ∧
      (∀ (j : Nat) (cj : Cluster), j < i → [Cluster.mk 0 [2, 0] [], Cluster.mk 1 [0, 0] []][j]? = some cj →
        Real.sqrt ((sq_dist [1, 0] ci.centroid_point : ℚ) : ℝ)
          < Real.sqrt ((sq_dist [1, 0] cj.centroid_point : ℚ) : ℝ)) :=
  get_nearest_cluster_least_minimum
    (KMeanClustering.mk 2 2 [] [Cluster.mk 0 [2, 0] [], Cluster.mk 1 [0, 0] []])
    (Point.mk "P" (-1) [1, 0]) (by decide) (by decide) (by decide)

/-! ## Initialisation -/

/-- The loop of `init_clusters` after `n` iterations: `n` clusters were appended, the one
of iteration `i` with id `s.id + i`, the coordinates of point `i` and no members. -/
theorem init_loop_spec (s : KMeanClustering) (n : Nat) (hn : n ≤ s.points.length) :
    ∃ cs : List Cluster,
      forLoop n (fun i st =>
        (st.points[i]?).bind fun p =>
        some (KMeanClustering.mk (st.id + 1) st.k st.points
          (st.clusters ++ [Cluster.mk_new st.id p.values]))) s
        = some (KMeanClustering.mk (s.id + (n : Int)) s.k s.points (s.clusters ++ cs)) ∧
      cs.length = n ∧
      ∀ i, i < n → ∃ p, s.points[i]? = some p ∧
        cs[i]? = some (Cluster.mk_new (s.id + (i : Int)) p.values) := by
  induction n with
  | zero => exact ⟨[], by simp [forLoop], rfl, fun i hi => absurd hi (Nat.not_lt_zero i)⟩
  | succ n ih =>
    obtain ⟨cs, hl, hlen, hcs⟩ := ih (Nat.le_of_succ_le hn)
    have hp : s.points[n]? = some s.points[n] := List.getElem?_eq_getElem hn
    refine ⟨cs ++ [Cluster.mk_new (s.id + (n : Int)) s.points[n].values], ?_, ?_, ?_⟩
    · rw [forLoop_succ, hl]
      simp [hp, add_assoc]
    · simp [hlen]
    · intro i hi
      rcases Nat.lt_succ_iff_lt_or_eq.mp hi with h | h
      · obtain ⟨q, hq1, hq2⟩ := hcs i h
        refine ⟨q, hq1, ?_⟩
        rw [List.getElem?_append_left (by omega), hq2]
      · subst h
        refine ⟨s.points[i], hp, ?_⟩
        rw [List.getElem?_append_right (by omega)]
        simp [hlen]

/-- The clusters that `init_clusters` builds on a freshly constructed engine. -/
theorem init_clusters_eq (k : Int) (points : List Point) (hn : k.toNat ≤ points.length) :
    ∃ s0 : KMeanClustering, init_clusters (KMeanClustering.mk_new k points) = some s0 ∧
      s0.clusters.length = k.toNat ∧ s0.points = points ∧ s0.k = k ∧
      ∀ i : Nat, i < k.toNat → ∃ p, points[i]? = some p ∧
        s0.clusters[i]? = some (Cluster.mk (i : Int) p.values []) := by
  obtain ⟨cs, hl, hlen, hcs⟩ := init_loop_spec (KMeanClustering.mk_new k points) k.toNat hn
  refine ⟨_, hl, ?_, rfl, rfl, ?_⟩
  · simp only [KMeanClustering.mk_new, List.nil_append, hlen]
  · intro i hi
    obtain ⟨p, hp1, hp2⟩ := hcs i hi
    refine ⟨p, hp1, ?_⟩
    simpa [KMeanClustering.mk_new, Cluster.mk_new] using hp2

/-- C5: on a freshly constructed engine with `0 ≤ k ≤` number of points, `init_clusters`
produces exactly `k` clusters, and the cluster at index `i` has `cluster_id = i`, the
coordinate vector of the `i`-th input point as centroid and an empty member list; the
points and `k` are untouched. -/
theorem init_clusters_fresh (k : Int) (points : List Point)
    (hk0 : 0 ≤ k) (hkn : k ≤ (points.length : Int)) :
    ∃ s0 : KMeanClustering, init_clusters (KMeanClustering.mk_new k points) = some s0 ∧
      (s0.clusters.length : Int) = k ∧ s0.points = points ∧ s0.k = k ∧
      ∀ i : Nat, (i : Int) < k → ∃ p, points[i]? = some p ∧
        s0.clusters[i]? = some (Cluster.mk (i : Int) p.values []) := by
  obtain ⟨s0, h0, hlen, hp, hk, hcl⟩ := init_clusters_eq k points (by omega)
  exact ⟨s0, h0, by omega, hp, hk, fun i hi => hcl i (by omega)⟩

/-- C5 at a concrete input: three points, `k = 2`. -/
theorem init_clusters_fresh_witness :
    ∃ s0 : KMeanClustering,
      init_clusters (KMeanClustering.mk_new 2
        [Point.mk_new "A" [0, 0], Point.mk_new "B" [1, 0], Point.mk_new "C" [5, 5]]) = some s0 ∧
      (s0.clusters.length : Int) = 2 ∧
      s0.points = [Point.mk_new "A" [0, 0], Point.mk_new "B" [1, 0], Point.mk_new "C" [5, 5]] ∧
      s0.k = 2 ∧
      ∀ i : Nat, (i : Int) < 2 → ∃ p,
        [Point.mk_new "A" [0, 0], Point.mk_new "B" [1, 0], Point.mk_new "C" [5, 5]][i]? = some p ∧
        s0.clusters[i]? = some (Cluster.mk (i : Int) p.values []) :=
  init_clusters_fresh 2
    [Point.mk_new "A" [0, 0], Point.mk_new "B" [1, 0], Point.mk_new "C" [5, 5]]
    (by decide) (by decide)

/-! ## The assignment loop -/

/-- The squared-distance loop reads the engine only through the centroid of cluster `i`. -/
theorem sq_sum_congr (s t : KMeanClustering) (p q : Point) (i : Nat)
    (hv : p.values = q.values)
    (hc : (s.clusters[i]?).map (fun c => c.centroid_point)
      = (t.clusters[i]?).map (fun c => c.centroid_point)) :
    sq_sum s p i = sq_sum t q i := by
  unfold sq_sum
  rw [hv]
  apply forLoop_congr
  intro j _ x
  cases hs : s.clusters[i]? with
  | none =>
    cases ht : t.clusters[i]? with
    | none => rfl
    | some b => rw [hs, ht] at hc; simp at hc
  | some a =>
    cases ht : t.clusters[i]? with
    | none => rw [hs, ht] at hc; simp at hc
    | some b =>
      rw [hs, ht] at hc
      simp only [Option.map_some', Option.some.injEq] at hc
      simp [hc]

/-- The nearest-cluster query reads the engine only through `k` and the centroids, and
the point only through its coordinates. -/
theorem get_nearest_cluster_congr (s t : KMeanClustering) (p q : Point)
    (hk : s.k = t.k) (hv : p.values = q.values)
    (hc : ∀ i : Nat, (s.clusters[i]?).map (fun c => c.centroid_point)
      = (t.clusters[i]?).map (fun c => c.centroid_point)) :
    get_nearest_cluster s p = get_nearest_cluster t q := by
  unfold get_nearest_cluster
  rw [hk]
  congr 1
  apply forLoop_congr
  intro i _ x
  unfold nearest_step
  rw [sq_sum_congr s t p q i hv (hc i)]

theorem members_mid_eq_cons (s : KMeanClustering) (n c : Nat) (hn : n < s.points.length) :
    members_mid s n c = (if s.points[n].cluster_id = (c : Int) then [s.points[n]] else [])
      ++ members_removed s n c := by
  unfold members_mid members_removed
  rw [List.drop_eq_getElem_cons hn, List.filter_cons]
  by_cases h : s.points[n].cluster_id = (c : Int) <;> simp [h]

theorem members_mid_succ (s : KMeanClustering) (n c : Nat) (hn : n < s.points.length) :
    members_mid s (n + 1) c = members_removed s n c
      ++ (if (reassign s s.points[n]).cluster_id = (c : Int) then [reassign s s.points[n]]
          else []) := by
  have key : (s.points.take (n + 1)).map (reassign s)
      = (s.points.take n).map (reassign s) ++ [reassign s s.points[n]] := by
    rw [List.take_succ, List.getElem?_eq_getElem hn, List.map_append]
    rfl
  unfold members_mid members_removed
  rw [key, List.filter_append, List.append_assoc]
  by_cases h : (reassign s s.points[n]).cluster_id = (c : Int) <;> simp [h, List.filter_cons]

theorem erase_first_named_head (p : Point) (l : List Point) :
    erase_first_named p.name (p :: l) = l := by
  simp [erase_first_named]

theorem assign_mid_zero (s : KMeanClustering) (h : Shape s) : assign_mid s 0 = s := by
  obtain ⟨_, _, hmem⟩ := h
  cases s with
  | mk id k points clusters =>
    simp only [assign_mid, KMeanClustering.mk.injEq, true_and]
    constructor
    · apply List.ext_getElem?
      intro m
      simp
    · apply List.ext_getElem?
      intro c
      rw [List.getElem?_mapIdx]
      cases hc : clusters[c]? with
      | none => rfl
      | some cl =>
        have hlt : c < clusters.length := (List.getElem?_eq_some.mp hc).1
        have := hmem c hlt
        simp only [hc, Option.map_some', Option.some.injEq] at this
        simp [members_mid, ← this]

/-- In a consistent engine every point has a nearest cluster, with an index below `k`. -/
theorem consistent_nearest (s : KMeanClustering) (h : Consistent s) (p : Point)
    (hp : p.values.length = 2) :
    ∃ i : Nat, i < s.k.toNat ∧ get_nearest_cluster s p = some (i : Int) := by
  obtain ⟨hk, ⟨hlen, _, _⟩, _, hcen⟩ := h
  obtain ⟨i, _, hres, hi, _⟩ := get_nearest_cluster_spec s p hk (le_of_eq hlen.symm)
    (fun c hc => by rw [hp]; exact hcen c hc)
  exact ⟨i, hi, hres⟩

theorem get_nearest_cluster_assign_mid (s : KMeanClustering) (n : Nat) (p : Point) :
    get_nearest_cluster (assign_mid s n) p = get_nearest_cluster s p := by
  refine get_nearest_cluster_congr (assign_mid s n) s p p rfl rfl ?_
  intro i
  simp only [assign_mid, List.getElem?_mapIdx, Option.map_map]
  rfl

theorem mapIdx_congr_getElem {α β : Type} (l : List α) (f g : Nat → α → β)
    (h : ∀ (c : Nat) (a : α), l[c]? = some a → f c a = g c a) : l.mapIdx f = l.mapIdx g := by
  apply List.ext_getElem?
  intro c
  rw [List.getElem?_mapIdx, List.getElem?_mapIdx]
  cases hc : l[c]? with
  | none => rfl
  | some a => simp [h c a hc]

/-- Overwriting entry `o` of an indexed map gives the indexed map of a function that
differs at `o` only. -/
theorem mapIdx_set_eq {α β : Type} (l : List α) (f g : Nat → α → β) (o : Nat) (x : β)
    (h : ∀ (c : Nat) (a : α), c ≠ o → l[c]? = some a → f c a = g c a)
    (hx : ∀ a : α, l[o]? = some a → x = g o a) : (l.mapIdx f).set o x = l.mapIdx g := by
  apply List.ext_getElem?
  intro c
  rw [List.getElem?_set, List.getElem?_mapIdx, List.getElem?_mapIdx, List.length_mapIdx]
  by_cases hoc : o = c
  · subst hoc
    rw [if_pos rfl]
    cases hc : l[o]? with
    | none =>
      have : ¬ o < l.length := by
        intro hlt
        rw [List.getElem?_eq_getElem hlt] at hc
        exact Option.noConfusion hc
      simp [this]
    | some a =>
      have : o < l.length := (List.getElem?_eq_some.mp hc).1
      simp [this, hx a hc]
  · rw [if_neg hoc]
    cases hc : l[c]? with
    | none => rfl
    | some a => simp [h c a (fun e => hoc e.symm) hc]

/-- One iteration of the assignment loop: point `n` leaves the head of its old member
list and joins the end of the member list of its nearest cluster `i`. -/
theorem assign_point_step (s : KMeanClustering) (h : Shape s) (n : Nat)
    (hn : n < s.points.length) (b : Bool) (i : Nat) (hi : i < s.k.toNat)
    (hnear : get_nearest_cluster s s.points[n] = some (i : Int)) :
    assign_point n (assign_mid s n, b) = some (assign_mid s (n + 1), true) := by
  obtain ⟨hlen, hids, hmem⟩ := h
  have hpmem : s.points[n] ∈ s.points := List.getElem_mem hn
  have hre : reassign s s.points[n] = Point.mk s.points[n].name (i : Int) s.points[n].values := by
    simp [reassign, hnear]
  have hpt : (assign_mid s n).points[n]? = some s.points[n] := by
    simp [assign_mid, List.getElem?_mapIdx, List.getElem?_eq_getElem hn]
  have hi' : i < s.clusters.length := by omega
  have hcl1 : (if s.points[n].cluster_id ≠ -1 then
        (idx? (assign_mid s n).clusters s.points[n].cluster_id).bind fun c =>
          some ((assign_mid s n).clusters.set s.points[n].cluster_id.toNat
            (c.remove_point s.points[n]))
      else some (assign_mid s n).clusters)
      = some (s.clusters.mapIdx fun c cl =>
          Cluster.mk cl.cluster_id cl.centroid_point (members_removed s n c)) := by
    by_cases hold : s.points[n].cluster_id = -1
    · rw [if_neg (by simpa using hold)]
      congr 1
      apply mapIdx_congr_getElem
      intro c a _
      rw [members_mid_eq_cons s n c hn, if_neg (by omega)]
      rfl
    · rw [if_pos hold]
      rcases hids _ hpmem with h1 | ⟨h0, h1⟩
      · exact absurd h1 hold
      · have ho : s.points[n].cluster_id.toNat < s.clusters.length := by omega
        have hoc : ((s.points[n].cluster_id.toNat : Nat) : Int) = s.points[n].cluster_id := by
          omega
        have hget : idx? (assign_mid s n).clusters s.points[n].cluster_id
            = some (Cluster.mk s.clusters[s.points[n].cluster_id.toNat].cluster_id
                s.clusters[s.points[n].cluster_id.toNat].centroid_point
                (members_mid s n s.points[n].cluster_id.toNat)) := by
          simp [idx?, h0, assign_mid, List.getElem?_mapIdx, List.getElem?_eq_getElem ho]
        rw [hget]
        simp only [Option.some_bind, Option.some.injEq, assign_mid]
        apply mapIdx_set_eq
        · intro c a hc _
          rw [members_mid_eq_cons s n c hn, if_neg (by omega)]
          rfl
        · intro a ha
          rw [List.getElem?_eq_getElem ho] at ha
          simp only [Option.some.injEq] at ha
          subst ha
          simp only [Cluster.remove_point]
          rw [members_mid_eq_cons s n _ hn, if_pos hoc.symm]
          simp [erase_first_named]
  unfold assign_point
  simp only [hpt, Option.some_bind, get_nearest_cluster_assign_mid, hnear]
  rw [if_pos (by omega : (i : Int) ≠ -1), hcl1]
  have hget2 : idx? (s.clusters.mapIdx fun c cl =>
      Cluster.mk cl.cluster_id cl.centroid_point (members_removed s n c)) (i : Int)
      = some (Cluster.mk s.clusters[i].cluster_id s.clusters[i].centroid_point
          (members_removed s n i)) := by
    simp [idx?, List.getElem?_mapIdx, List.getElem?_eq_getElem hi']
  simp only [Option.some_bind, hget2, Option.some.injEq, Prod.mk.injEq, and_true, assign_mid,
    KMeanClustering.mk.injEq, true_and]
  constructor
  · apply mapIdx_set_eq
    · intro c a hc _
      have : ¬ c < n → ¬ c < n + 1 := by omega
      by_cases hcn : c < n
      · simp [hcn, Nat.lt_succ_of_lt hcn]
      · simp [hcn, this hcn]
    · intro a ha
      rw [List.getElem?_eq_getElem hn] at ha
      simp only [Option.some.injEq] at ha
      subst ha
      simp [hre]
  · simp only [Int.toNat_ofNat]
    apply mapIdx_set_eq
    · intro c a hc _
      rw [members_mid_succ s n c hn, hre, if_neg (by simp; omega)]
      simp
    · intro a ha
      rw [List.getElem?_eq_getElem hi'] at ha
      simp only [Option.some.injEq] at ha
      subst ha
      rw [members_mid_succ s n i hn, hre]
      simp [Cluster.add_point]

/-- The assignment loop of a pass after `n` iterations, when the first `n` points have a
nearest cluster. -/
theorem assign_loop_spec (s : KMeanClustering) (h : Shape s) (n : Nat)
    (hn : n ≤ s.points.length)
    (hnear : ∀ (m : Nat) (p : Point), m < n → s.points[m]? = some p →
      ∃ i : Nat, i < s.k.toNat ∧ get_nearest_cluster s p = some (i : Int)) :
    forLoop n assign_point (s, false) = some (assign_mid s n, decide (0 < n)) := by
  induction n with
  | zero => simp [forLoop, assign_mid_zero s h]
  | succ n ih =>
    have hlt : n < s.points.length := hn
    obtain ⟨i, hi, hin⟩ := hnear n s.points[n] (Nat.lt_succ_self n)
      (List.getElem?_eq_getElem hlt)
    rw [forLoop_succ, ih (Nat.le_of_lt hlt) (fun m p hm hp => hnear m p (Nat.lt_succ_of_lt hm) hp)]
    simp only [Option.some_bind]
    rw [assign_point_step s h n hlt _ i hi hin]
    simp

theorem assign_mid_length (s : KMeanClustering) :
    assign_mid s s.points.length = KMeanClustering.mk s.id s.k (s.points.map (reassign s))
      (s.clusters.mapIdx fun c cl => Cluster.mk cl.cluster_id cl.centroid_point
        ((s.points.map (reassign s)).filter (fun q => decide (q.cluster_id = (c : Int))))) := by
  simp only [assign_mid, KMeanClustering.mk.injEq, true_and]
  constructor
  · apply List.ext_getElem?
    intro m
    rw [List.getElem?_mapIdx, List.getElem?_map]
    cases hm : s.points[m]? with
    | none => rfl
    | some a =>
      have : m < s.points.length := (List.getElem?_eq_some.mp hm).1
      simp [this]
  · apply mapIdx_congr_getElem
    intro c a _
    simp [members_mid]

/-! ## The centroid loop -/

theorem totals_loop (members : List Point) (hdim : ∀ q, q ∈ members → 2 ≤ q.values.length)
    (n : Nat) (hn : n ≤ members.length) :
    forLoop n (fun l t =>
      (members[l]?).bind fun q =>
      (q.values[0]?).bind fun x =>
      (q.values[1]?).bind fun y =>
      some (t.1 + x, t.2 + y)) (0, 0)
      = some (((members.take n).map (coord 0)).sum, ((members.take n).map (coord 1)).sum) := by
  induction n with
  | zero => simp [forLoop]
  | succ n ih =>
    have hlt : n < members.length := hn
    have hq := hdim _ (List.getElem_mem hlt)
    have h0 : members[n].values[0]? = some (coord 0 members[n]) := by
      rw [List.getElem?_eq_getElem (by omega)]
      simp [coord, List.getD_eq_getElem?_getD, List.getElem?_eq_getElem (show 0 < members[n].values.length by omega)]
    have h1 : members[n].values[1]? = some (coord 1 members[n]) := by
      rw [List.getElem?_eq_getElem (by omega)]
      simp [coord, List.getD_eq_getElem?_getD, List.getElem?_eq_getElem (show 1 < members[n].values.length by omega)]
    have key : ∀ f : Point → ℚ, ((members.take (n + 1)).map f).sum
        = ((members.take n).map f).sum + f members[n] := by
      intro f
      rw [List.take_succ, List.getElem?_eq_getElem hlt, List.map_append, List.sum_append]
      simp
    rw [forLoop_succ, ih (Nat.le_of_lt hlt), key, key]
    simp [List.getElem?_eq_getElem hlt, h0, h1]

theorem totals_eq (members : List Point) (hdim : ∀ q, q ∈ members → 2 ≤ q.values.length) :
    totals members = some ((members.map (coord 0)).sum, (members.map (coord 1)).sum) := by
  unfold totals
  rw [totals_loop members hdim _ (Nat.le_refl _), List.take_length]

theorem recompute_centroid_eq (s : KMeanClustering) (i : Nat) (cl : Cluster)
    (hcl : s.clusters[i]? = some cl) (hdim : ∀ q, q ∈ cl.points → 2 ≤ q.values.length) :
    recompute_centroid i s
      = some (KMeanClustering.mk s.id s.k s.points (s.clusters.set i (recentre cl))) := by
  unfold recompute_centroid
  rw [hcl]
  simp only [Option.some_bind]
  by_cases h0 : cl.points.length = 0
  · rw [if_pos h0]
    have : s.clusters.set i (recentre cl) = s.clusters := by
      simp only [recentre, if_pos h0]
      apply List.ext_getElem?
      intro j
      rw [List.getElem?_set]
      by_cases hij : i = j
      · subst hij
        have : i < s.clusters.length := (List.getElem?_eq_some.mp hcl).1
        simp [this, hcl]
      · simp [hij]
    rw [this]
  · rw [if_neg h0, totals_eq cl.points hdim]
    simp [recentre, h0]

/-- The centroid loop of a pass after `n` iterations. -/
theorem recompute_loop_spec (s : KMeanClustering) (n : Nat) (hn : n ≤ s.clusters.length)
    (hdim : ∀ (c : Nat) (cl : Cluster), c < n → s.clusters[c]? = some cl →
      ∀ q, q ∈ cl.points → 2 ≤ q.values.length) :
    forLoop n recompute_centroid s
      = some (KMeanClustering.mk s.id s.k s.points
          (s.clusters.mapIdx fun c cl => if c < n then recentre cl else cl)) := by
  induction n with
  | zero =>
    have : (s.clusters.mapIdx fun c cl => if c < 0 then recentre cl else cl) = s.clusters := by
      apply List.ext_getElem?
      intro j
      simp
    rw [this]
    rfl
  | succ n ih =>
    have hlt : n < s.clusters.length := hn
    rw [forLoop_succ, ih (Nat.le_of_lt hlt)
      (fun c cl hc hcl => hdim c cl (Nat.lt_succ_of_lt hc) hcl)]
    simp only [Option.some_bind]
    rw [recompute_centroid_eq _ n s.clusters[n]
      (by simp [List.getElem?_mapIdx, List.getElem?_eq_getElem hlt])
      (hdim n _ (Nat.lt_succ_self n) (List.getElem?_eq_getElem hlt))]
    simp only [Option.some.injEq, KMeanClustering.mk.injEq, true_and]
    apply mapIdx_set_eq
    · intro c a hc _
      by_cases hcn : c < n
      · simp [hcn, Nat.lt_succ_of_lt hcn]
      · have : ¬ c < n + 1 := by omega
        simp [hcn, this]
    · intro a ha
      rw [List.getElem?_eq_getElem hlt] at ha
      simp only [Option.some.injEq] at ha
      subst ha
      simp

/-! ## A defined loop has defined iterations -/

theorem forLoop_succ_some {σ : Type} (n : Nat) (body : Nat → σ → Option σ) (st r : σ)
    (h : forLoop (n + 1) body st = some r) :
    ∃ x, forLoop n body st = some x ∧ body n x = some r := by
  rw [forLoop_succ] at h
  cases hx : forLoop n body st with
  | none => rw [hx] at h; exact Option.noConfusion h
  | some x => rw [hx] at h; exact ⟨x, rfl, h⟩

theorem forLoop_some_prefix {σ : Type} (n : Nat) (body : Nat → σ → Option σ) (st r : σ)
    (h : forLoop n body st = some r) (m : Nat) (hm : m < n) :
    ∃ x y, forLoop m body st = some x ∧ body m x = some y := by
  induction n generalizing r with
  | zero => exact absurd hm (Nat.not_lt_zero m)
  | succ n ih =>
    obtain ⟨x, hx, hstep⟩ := forLoop_succ_some n body st r h
    rcases Nat.lt_succ_iff_lt_or_eq.mp hm with hlt | heq
    · exact ih x hx hlt
    · subst heq
      exact ⟨x, r, hx, hstep⟩

/-- A defined nearest-cluster query with `k ≥ 1` returns an index below `k`. -/
theorem nearest_defined (s : KMeanClustering) (p : Point) (v : Int) (hk : 1 ≤ s.k)
    (h : get_nearest_cluster s p = some v) :
    ∃ i : Nat, i < s.k.toNat ∧ v = (i : Int) := by
  unfold get_nearest_cluster at h
  cases hl : forLoop s.k.toNat (nearest_step s p) (Dist.max, -1) with
  | none => rw [hl] at h; exact Option.noConfusion h
  | some r =>
    have hd : ∀ i, i < s.k.toNat → sq_sum s p i = some ((sq_sum s p i).getD 0) := by
      intro i hi
      obtain ⟨x, y, _, hstep⟩ := forLoop_some_prefix _ _ _ _ hl i hi
      unfold nearest_step at hstep
      cases hs : sq_sum s p i with
      | none => rw [hs] at hstep; exact Option.noConfusion hstep
      | some d => rfl
    rcases nearest_loop_spec s p _ s.k.toNat hd with ⟨h0, _⟩ | ⟨i, hi, hres, _, _⟩
    · omega
    · rw [hres] at h
      simp only [Option.map_some', Option.some.injEq] at h
      exact ⟨i, hi, h.symm⟩

/-- When the assignment loop is defined, every point it handled has a nearest cluster. -/
theorem assign_loop_defined (s : KMeanClustering) (h : Shape s) (hk : 1 ≤ s.k) (n : Nat)
    (hn : n ≤ s.points.length) (r : KMeanClustering × Bool)
    (hr : forLoop n assign_point (s, false) = some r) :
    ∀ (m : Nat) (p : Point), m < n → s.points[m]? = some p →
      ∃ i : Nat, i < s.k.toNat ∧ get_nearest_cluster s p = some (i : Int) := by
  induction n generalizing r with
  | zero => intro m p hm; exact absurd hm (Nat.not_lt_zero m)
  | succ n ih =>
    have hlt : n < s.points.length := hn
    obtain ⟨x, hx, hstep⟩ := forLoop_succ_some n _ _ r hr
    have hprev := ih (Nat.le_of_lt hlt) x hx
    rw [assign_loop_spec s h n (Nat.le_of_lt hlt) hprev] at hx
    intro m p hm hp
    rcases Nat.lt_succ_iff_lt_or_eq.mp hm with hlt' | heq
    · exact hprev m p hlt' hp
    · subst heq
      rw [List.getElem?_eq_getElem hlt] at hp
      simp only [Option.some.injEq] at hp
      subst hp
      simp only [Option.some.injEq] at hx
      subst hx
      have hpt : (assign_mid s m).points[m]? = some s.points[m] := by
        simp [assign_mid, List.getElem?_mapIdx, List.getElem?_eq_getElem hlt]
      unfold assign_point at hstep
      simp only [hpt, Option.some_bind, get_nearest_cluster_assign_mid] at hstep
      cases hg : get_nearest_cluster s s.points[m] with
      | none => rw [hg] at hstep; exact Option.noConfusion hstep
      | some v =>
        obtain ⟨i, hi, rfl⟩ := nearest_defined s _ v hk hg
        exact ⟨i, hi, rfl⟩

/-- Defined totals: every member has at least two coordinates. -/
theorem totals_defined (members : List Point) (t : ℚ × ℚ) (h : totals members = some t) :
    ∀ q, q ∈ members → 2 ≤ q.values.length := by
  intro q hq
  obtain ⟨l, hl, rfl⟩ := List.getElem_of_mem hq
  obtain ⟨x, y, _, hstep⟩ := forLoop_some_prefix _ _ _ _ h l hl
  simp only [List.getElem?_eq_getElem hl, Option.some_bind] at hstep
  cases h0 : members[l].values[0]? with
  | none => rw [h0] at hstep; exact Option.noConfusion hstep
  | some a =>
    cases h1 : members[l].values[1]? with
    | none => rw [h0, h1] at hstep; exact Option.noConfusion hstep
    | some b =>
      have := (List.getElem?_eq_some.mp h1).1
      omega

/-- When the centroid loop is defined, the members of the clusters it handled have at
least two coordinates. -/
theorem recompute_loop_defined (s : KMeanClustering) (n : Nat) (hn : n ≤ s.clusters.length)
    (r : KMeanClustering) (hr : forLoop n recompute_centroid s = some r) :
    ∀ (c : Nat) (cl : Cluster), c < n → s.clusters[c]? = some cl →
      ∀ q, q ∈ cl.points → 2 ≤ q.values.length := by
  induction n generalizing r with
  | zero => intro c cl hc; exact absurd hc (Nat.not_lt_zero c)
  | succ n ih =>
    have hlt : n < s.clusters.length := hn
    obtain ⟨x, hx, hstep⟩ := forLoop_succ_some n _ _ r hr
    have hprev := ih (Nat.le_of_lt hlt) x hx
    rw [recompute_loop_spec s n (Nat.le_of_lt hlt) hprev] at hx
    intro c cl hc hcl
    rcases Nat.lt_succ_iff_lt_or_eq.mp hc with hlt' | heq
    · exact hprev c cl hlt' hcl
    · subst heq
      simp only [Option.some.injEq] at hx
      subst hx
      rw [List.getElem?_eq_getElem hlt] at hcl
      simp only [Option.some.injEq] at hcl
      subst hcl
      unfold recompute_centroid at hstep
      simp only [List.getElem?_mapIdx, List.getElem?_eq_getElem hlt, Option.map_some',
        Nat.lt_irrefl, if_false, Option.some_bind] at hstep
      by_cases h0 : s.clusters[c].points.length = 0
      · intro q hq
        rw [List.length_eq_zero.mp h0] at hq
        exact absurd hq (List.not_mem_nil q)
      · rw [if_neg h0] at hstep
        cases ht : totals s.clusters[c].points with
        | none => rw [ht] at hstep; exact Option.noConfusion hstep
        | some t => exact totals_defined _ t ht

/-! ## One pass in closed form -/

theorem mem_mapIdx {α β : Type} (l : List α) (f : Nat → α → β) (x : β) (hx : x ∈ l.mapIdx f) :
    ∃ (c : Nat) (a : α), l[c]? = some a ∧ x = f c a := by
  rw [List.mem_iff_getElem?] at hx
  obtain ⟨c, hc⟩ := hx
  rw [List.getElem?_mapIdx] at hc
  cases ha : l[c]? with
  | none => rw [ha] at hc; exact Option.noConfusion hc
  | some a =>
    rw [ha] at hc
    simp only [Option.map_some', Option.some.injEq] at hc
    exact ⟨c, a, ha, hc.symm⟩

theorem recentre_points (c : Cluster) : (recentre c).points = c.points := by
  unfold recentre
  split <;> rfl

theorem recentre_cluster_id (c : Cluster) : (recentre c).cluster_id = c.cluster_id := by
  unfold recentre
  split <;> rfl

theorem reassign_values (s : KMeanClustering) (p : Point) : (reassign s p).values = p.values :=
  rfl

theorem reassign_name (s : KMeanClustering) (p : Point) : (reassign s p).name = p.name :=
  rfl

/-- A pass is defined and ends in `pass_fn s` when every point has a nearest cluster and
every member after the assignment loop has two coordinates. -/
theorem pass_core (s : KMeanClustering) (h : Shape s)
    (hnear : ∀ (m : Nat) (p : Point), m < s.points.length → s.points[m]? = some p →
      ∃ i : Nat, i < s.k.toNat ∧ get_nearest_cluster s p = some (i : Int))
    (hdim : ∀ (c : Nat) (cl : Cluster), c < s.k.toNat →
      (assign_mid s s.points.length).clusters[c]? = some cl →
      ∀ q, q ∈ cl.points → 2 ≤ q.values.length) :
    pass s = some (pass_fn s, decide (0 < s.points.length)) := by
  have hlen := h.1
  unfold pass
  rw [assign_loop_spec s h _ (Nat.le_refl _) hnear]
  simp only [Option.some_bind]
  have hk : (assign_mid s s.points.length).k = s.k := rfl
  rw [← hk, recompute_loop_spec _ (assign_mid s s.points.length).k.toNat
    (by simp [assign_mid, hlen]) hdim]
  rw [assign_mid_length]
  simp only [Option.some_bind, Option.some.injEq, Prod.mk.injEq, and_true, pass_fn,
    KMeanClustering.mk.injEq, true_and, List.mapIdx_mapIdx]
  apply mapIdx_congr_getElem
  intro c a hc
  have : c < s.k.toNat := by
    rw [← hlen]
    exact (List.getElem?_eq_some.mp hc).1
  simp [this]

/-- One pass from a consistent engine is defined and ends in `pass_fn s`; the flag
`change` is set as soon as there is a point. -/
theorem pass_eq (s : KMeanClustering) (h : Consistent s) :
    pass s = some (pass_fn s, decide (0 < s.points.length)) := by
  have hC := h
  obtain ⟨hk, hS, hdimp, hcen⟩ := h
  apply pass_core s hS
  · intro m p _ hp
    have hpm : p ∈ s.points := by
      rw [List.mem_iff_getElem?]
      exact ⟨m, hp⟩
    exact consistent_nearest s hC p (hdimp p hpm)
  · intro c cl _ hcl q hq
    rw [assign_mid_length] at hcl
    have hclm : cl ∈ (s.clusters.mapIdx fun c cl => Cluster.mk cl.cluster_id cl.centroid_point
        ((s.points.map (reassign s)).filter (fun q => decide (q.cluster_id = (c : Int))))) := by
      rw [List.mem_iff_getElem?]
      exact ⟨c, hcl⟩
    obtain ⟨c', a, _, rfl⟩ := mem_mapIdx _ _ _ hclm
    simp only [List.mem_filter, List.mem_map] at hq
    obtain ⟨⟨p, hp, rfl⟩, _⟩ := hq
    rw [reassign_values, hdimp p hp]

/-- A defined pass with `k ≥ 1` ends in `pass_fn s`; every point had a nearest cluster
and at least two coordinates. -/
theorem pass_defined (s : KMeanClustering) (h : Shape s) (hk : 1 ≤ s.k)
    (r : KMeanClustering × Bool) (hr : pass s = some r) :
    r = (pass_fn s, decide (0 < s.points.length)) ∧
    (∀ p, p ∈ s.points →
      ∃ i : Nat, i < s.k.toNat ∧ get_nearest_cluster s p = some (i : Int)) ∧
    (∀ p, p ∈ s.points → 2 ≤ p.values.length) := by
  have hr0 := hr
  unfold pass at hr
  cases hst : forLoop s.points.length assign_point (s, false) with
  | none => rw [hst] at hr; exact Option.noConfusion hr
  | some st =>
    have hnear := assign_loop_defined s h hk _ (Nat.le_refl _) st hst
    have hnear' : ∀ p, p ∈ s.points →
        ∃ i : Nat, i < s.k.toNat ∧ get_nearest_cluster s p = some (i : Int) := by
      intro p hp
      obtain ⟨m, hm, rfl⟩ := List.getElem_of_mem hp
      exact hnear m _ hm (List.getElem?_eq_getElem hm)
    rw [assign_loop_spec s h _ (Nat.le_refl _) hnear] at hst
    simp only [Option.some.injEq] at hst
    subst hst
    rw [assign_loop_spec s h _ (Nat.le_refl _) hnear] at hr
    simp only [Option.some_bind] at hr
    cases hs2 : forLoop s.k.toNat recompute_centroid (assign_mid s s.points.length) with
    | none => rw [hs2] at hr; exact Option.noConfusion hr
    | some s2 =>
      have hdim := recompute_loop_defined (assign_mid s s.points.length) s.k.toNat
        (by simp [assign_mid, h.1]) s2 hs2
      have hcore := pass_core s h (fun m p _ hp => hnear m p
        (List.getElem?_eq_some.mp hp).1 hp) hdim
      rw [hcore] at hr0
      simp only [Option.some.injEq] at hr0
      refine ⟨hr0.symm, hnear', ?_⟩
      intro p hp
      obtain ⟨i, hi, hin⟩ := hnear' p hp
      have hilt : i < s.clusters.length := by rw [h.1]; exact hi
      have hmemq : reassign s p ∈ (s.points.map (reassign s)).filter
          (fun q => decide (q.cluster_id = (i : Int))) := by
        simp only [List.mem_filter, List.mem_map, decide_eq_true_eq]
        exact ⟨⟨p, hp, rfl⟩, by simp [reassign, hin]⟩
      have hget : (assign_mid s s.points.length).clusters[i]?
          = some (Cluster.mk s.clusters[i].cluster_id s.clusters[i].centroid_point
              ((s.points.map (reassign s)).filter (fun q => decide (q.cluster_id = (i : Int))))) := by
        rw [assign_mid_length]
        simp only [List.getElem?_mapIdx, List.getElem?_eq_getElem hilt, Option.map_some']
      exact hdim i _ hi hget (reassign s p) hmemq

/-- The bookkeeping invariant is kept by a pass in which every point has a nearest
cluster. -/
theorem shape_pass_fn (s : KMeanClustering) (h : Shape s)
    (hnear : ∀ p, p ∈ s.points →
      ∃ i : Nat, i < s.k.toNat ∧ get_nearest_cluster s p = some (i : Int)) :
    Shape (pass_fn s) := by
  obtain ⟨hlen, hids, hmem⟩ := h
  refine ⟨by simp [pass_fn, hlen], ?_, ?_⟩
  · intro p hp
    simp only [pass_fn, List.mem_map] at hp
    obtain ⟨q, hq, rfl⟩ := hp
    obtain ⟨i, hi, hin⟩ := hnear q hq
    right
    simp only [reassign, hin, Option.getD_some, pass_fn]
    omega
  · intro c hc
    simp only [pass_fn, List.length_mapIdx] at hc
    simp only [pass_fn, List.getElem?_mapIdx, List.getElem?_eq_getElem hc, Option.map_some',
      recentre_points]

/-- Consistency is kept by a pass. -/
theorem consistent_pass_fn (s : KMeanClustering) (h : Consistent s) :
    Consistent (pass_fn s) := by
  have hC := h
  obtain ⟨hk, hS, hdimp, hcen⟩ := h
  refine ⟨hk, shape_pass_fn s hS (fun p hp => consistent_nearest s hC p (hdimp p hp)), ?_, ?_⟩
  · intro p hp
    simp only [pass_fn, List.mem_map] at hp
    obtain ⟨q, hq, rfl⟩ := hp
    rw [reassign_values, hdimp q hq]
  · intro c hc
    obtain ⟨j, a, ha, rfl⟩ := mem_mapIdx _ _ _ hc
    have hmem_a : a ∈ s.clusters := by
      rw [List.mem_iff_getElem?]
      exact ⟨j, ha⟩
    unfold recentre
    split
    · exact hcen a hmem_a
    · simp

/-! ## Reachable states -/

/-- A defined `init_clusters` had at least `k` points to read. -/
theorem init_defined_le (s s0 : KMeanClustering) (h : init_clusters s = some s0) :
    s.k.toNat ≤ s.points.length := by
  by_contra hlt
  have hlt' : s.points.length < s.k.toNat := Nat.lt_of_not_le hlt
  obtain ⟨x, y, hx, hstep⟩ := forLoop_some_prefix _ _ _ _ h s.points.length hlt'
  obtain ⟨cs, hl, _, _⟩ := init_loop_spec s s.points.length (Nat.le_refl _)
  rw [hl] at hx
  simp only [Option.some.injEq] at hx
  subst hx
  simp at hstep

/-- The state that `init_clusters` leaves on the engine built from the input. -/
theorem init_shape (k : Int) (input : List (String × List ℚ)) (s0 : KMeanClustering)
    (h : init_clusters (engine_of_input k input) = some s0) :
    Shape s0 ∧ s0.k = k ∧ s0.points = input.map (fun r => Point.mk_new r.1 r.2) ∧
    (∀ i : Nat, i < k.toNat → ∃ r, input[i]? = some r ∧
      s0.clusters[i]? = some (Cluster.mk (i : Int) r.2 [])) := by
  have hle : k.toNat ≤ (input.map fun r => Point.mk_new r.1 r.2).length :=
    init_defined_le _ _ h
  obtain ⟨s0', hs0, hlen, hpts, hk, hcl⟩ := init_clusters_eq k
    (input.map fun r => Point.mk_new r.1 r.2) hle
  have : s0' = s0 := by
    unfold engine_of_input at h
    rw [hs0] at h
    exact Option.some.inj h
  subst this
  refine ⟨⟨by rw [hlen, hk], ?_, ?_⟩, hk, hpts, ?_⟩
  · intro p hp
    rw [hpts, List.mem_map] at hp
    obtain ⟨r, _, rfl⟩ := hp
    exact Or.inl rfl
  · intro c hc
    obtain ⟨p, _, hp2⟩ := hcl c (by omega)
    rw [hp2, hpts]
    simp only [Option.map_some', Option.some.injEq]
    symm
    rw [List.filter_eq_nil_iff]
    intro q hq
    rw [List.mem_map] at hq
    obtain ⟨r, _, rfl⟩ := hq
    simp only [Point.mk_new, decide_eq_true_eq]
    omega
  · intro i hi
    obtain ⟨p, hp1, hp2⟩ := hcl i hi
    rw [List.getElem?_map] at hp1
    cases hr : input[i]? with
    | none => rw [hr] at hp1; exact Option.noConfusion hp1
    | some r =>
      rw [hr] at hp1
      simp only [Option.map_some', Option.some.injEq] at hp1
      subst hp1
      exact ⟨r, rfl, hp2⟩

/-- On two-coordinate input with `1 ≤ k ≤` number of points, `init_clusters` is defined
and leaves a consistent engine. -/
theorem init_consistent (k : Int) (input : List (String × List ℚ))
    (hk1 : 1 ≤ k) (hkn : k ≤ (input.length : Int))
    (hdim : ∀ r, r ∈ input → r.2.length = 2) :
    ∃ s0 : KMeanClustering, init_clusters (engine_of_input k input) = some s0 ∧
      Consistent s0 := by
  obtain ⟨s0, hs0, _, _, _, _⟩ := init_clusters_eq k
    (input.map fun r => Point.mk_new r.1 r.2) (by simp; omega)
  have hs0' : init_clusters (engine_of_input k input) = some s0 := hs0
  obtain ⟨hS, hk, hpts, hcl⟩ := init_shape k input s0 hs0'
  refine ⟨s0, hs0', by omega, hS, ?_, ?_⟩
  · intro p hp
    rw [hpts, List.mem_map] at hp
    obtain ⟨r, hr, rfl⟩ := hp
    exact hdim r hr
  · intro c hc
    rw [List.mem_iff_getElem?] at hc
    obtain ⟨i, hi⟩ := hc
    have hilt : i < s0.clusters.length := (List.getElem?_eq_some.mp hi).1
    obtain ⟨r, hr1, hr2⟩ := hcl i (by rw [← hk, ← hS.1]; exact hilt)
    rw [hi] at hr2
    simp only [Option.some.injEq] at hr2
    subst hr2
    have hrm : r ∈ input := by
      rw [List.mem_iff_getElem?]
      exact ⟨i, hr1⟩
    exact le_of_eq (hdim r hrm).symm

/-- With `k ≤ 0` a pass changes nothing and leaves `change` unset. -/
theorem pass_nonpos (s : KMeanClustering) (hk : s.k ≤ 0) : pass s = some (s, false) := by
  have hk0 : s.k.toNat = 0 := by omega
  have hloop : ∀ n, n ≤ s.points.length → forLoop n assign_point (s, false) = some (s, false) := by
    intro n
    induction n with
    | zero => intro _; rfl
    | succ n ih =>
      intro hn
      have hlt : n < s.points.length := hn
      rw [forLoop_succ, ih (Nat.le_of_lt hlt)]
      simp [assign_point, List.getElem?_eq_getElem hlt, get_nearest_cluster, hk0, forLoop]
  unfold pass
  rw [hloop _ (Nat.le_refl _), hk0]
  rfl

/-- Every reachable state satisfies the bookkeeping invariant. -/
theorem reachable_shape (s : KMeanClustering) (h : Reachable s) : Shape s := by
  induction h with
  | init k input s0 h0 => exact (init_shape k input s0 h0).1
  | step s r _ hr ih =>
    by_cases hk : 1 ≤ s.k
    · obtain ⟨hr1, hnear, _⟩ := pass_defined s ih hk r hr
      rw [hr1]
      exact shape_pass_fn s ih hnear
    · rw [pass_nonpos s (by omega)] at hr
      simp only [Option.some.injEq] at hr
      rw [← hr]
      exact ih

/-! ## Claims about one pass -/

/-- C1: in every engine state between passes with `k ≥ 1` and two-coordinate points, one
pass is defined, and afterwards the `cluster_id` of every point is the result of
`get_nearest_cluster` for that point against the centroids as they were when the pass
started (batch assignment: no query sees a centroid recomputed in the same pass). -/
theorem pass_batch_assignment (s : KMeanClustering) (h : Consistent s) :
    ∃ (s' : KMeanClustering) (change : Bool), pass s = some (s', change) ∧
      s'.points.length = s.points.length ∧
      ∀ (i : Nat) (p : Point), s.points[i]? = some p →
        ∃ p', s'.points[i]? = some p' ∧ get_nearest_cluster s p = some p'.cluster_id := by
  refine ⟨pass_fn s, _, pass_eq s h, by simp [pass_fn], ?_⟩
  intro i p hp
  have hpm : p ∈ s.points := by
    rw [List.mem_iff_getElem?]
    exact ⟨i, hp⟩
  obtain ⟨c, _, hc⟩ := consistent_nearest s h p (h.2.2.1 p hpm)
  refine ⟨reassign s p, by simp [pass_fn, hp], ?_⟩
  simp [reassign, hc]

/-- C1 at a concrete state: the engine after the first pass on the points `A`, `B`, `C`,
`D` with `k = 2`; in the next pass `B` moves to cluster 0. -/
theorem pass_batch_assignment_witness :
    Consistent (KMeanClustering.mk 2 2
      [Point.mk "A" 0 [0, 0], Point.mk "B" 1 [1, 0], Point.mk "C" 1 [10, 10],
        Point.mk "D" 1 [11, 10]]
      [Cluster.mk 0 [0, 0] [Point.mk "A" 0 [0, 0]],
        Cluster.mk 1 [22 / 3, 20 / 3]
          [Point.mk "B" 1 [1, 0], Point.mk "C" 1 [10, 10], Point.mk "D" 1 [11, 10]]]) ∧
    ∃ (s' : KMeanClustering) (change : Bool),
      pass (KMeanClustering.mk 2 2
        [Point.mk "A" 0 [0, 0], Point.mk "B" 1 [1, 0], Point.mk "C" 1 [10, 10],
          Point.mk "D" 1 [11, 10]]
        [Cluster.mk 0 [0, 0] [Point.mk "A" 0 [0, 0]],
          Cluster.mk 1 [22 / 3, 20 / 3]
            [Point.mk "B" 1 [1, 0], Point.mk "C" 1 [10, 10], Point.mk "D" 1 [11, 10]]])
        = some (s', change) ∧
      s'.points.length = 4 ∧
      ∀ (i : Nat) (p : Point),
        [Point.mk "A" 0 [0, 0], Point.mk "B" 1 [1, 0], Point.mk "C" 1 [10, 10],
          Point.mk "D" 1 [11, 10]][i]? = some p →
        ∃ p', s'.points[i]? = some p' ∧
          get_nearest_cluster (KMeanClustering.mk 2 2
            [Point.mk "A" 0 [0, 0], Point.mk "B" 1 [1, 0], Point.mk "C" 1 [10, 10],
              Point.mk "D" 1 [11, 10]]
            [Cluster.mk 0 [0, 0] [Point.mk "A" 0 [0, 0]],
              Cluster.mk 1 [22 / 3, 20 / 3]
                [Point.mk "B" 1 [1, 0], Point.mk "C" 1 [10, 10], Point.mk "D" 1 [11, 10]]]) p
            = some p'.cluster_id :=
  ⟨by unfold Consistent Shape; decide!,
   pass_batch_assignment _ (by unfold Consistent Shape; decide!)⟩

/-- The centroid of a cluster with members, after its update, is the list of the means of
coordinates 0 and 1 of the members. -/
theorem recentre_mean (X : Cluster) (hne : X.points ≠ [])
    (hdim : ∀ q, q ∈ X.points → 2 ≤ q.values.length) (j : Nat)
    (hj : j < (recentre X).centroid_point.length) :
    ∃ xs : List ℚ, (recentre X).points.map (fun q => q.values[j]?) = xs.map some ∧
      (recentre X).centroid_point[j]? = some (xs.sum / ((recentre X).points.length : ℚ)) := by
  have h0 : ¬ X.points.length = 0 := fun h => hne (List.length_eq_zero.mp h)
  have hcen : (recentre X).centroid_point
      = [(X.points.map (coord 0)).sum / (X.points.length : ℚ),
         (X.points.map (coord 1)).sum / (X.points.length : ℚ)] := by
    simp [recentre, h0]
  rw [hcen] at hj ⊢
  rw [recentre_points]
  have hj2 : j < 2 := by simpa using hj
  refine ⟨X.points.map (coord j), ?_, ?_⟩
  · rw [List.map_map]
    apply List.map_congr_left
    intro q hq
    have := hdim q hq
    have hjq : j < q.values.length := by omega
    simp [coord, List.getD_eq_getElem?_getD, List.getElem?_eq_getElem hjq]
  · rcases Nat.lt_succ_iff_lt_or_eq.mp hj2 with hlt | heq
    · have : j = 0 := by omega
      subst this
      rfl
    · subst heq
      rfl

/-- C3: for every reachable state, after a pass, every cluster with at least one member
has as each coordinate of `centroid_point` the arithmetic mean (sum divided by the member
count) of that coordinate over exactly the points of its member list: `xs` is the list
of the `j`-th coordinates of the members. -/
theorem pass_centroid_is_mean (s : KMeanClustering) (h : Reachable s)
    (r : KMeanClustering × Bool) (hr : pass s = some r) :
    ∀ c, c ∈ r.1.clusters → c.points ≠ [] → ∀ j : Nat, j < c.centroid_point.length →
      ∃ xs : List ℚ, c.points.map (fun q => q.values[j]?) = xs.map some ∧
        c.centroid_point[j]? = some (xs.sum / (c.points.length : ℚ)) := by
  have hS := reachable_shape s h
  by_cases hk : 1 ≤ s.k
  · obtain ⟨hr1, _, hdim⟩ := pass_defined s hS hk r hr
    subst hr1
    intro c hc hne j hj
    obtain ⟨i, a, _, rfl⟩ := mem_mapIdx _ _ _ hc
    rw [recentre_points] at hne
    apply recentre_mean _ hne _ j hj
    intro q hq
    simp only [List.mem_filter, List.mem_map] at hq
    obtain ⟨⟨p, hp, rfl⟩, _⟩ := hq
    rw [reassign_values]
    exact hdim p hp
  · rw [pass_nonpos s (by omega)] at hr
    simp only [Option.some.injEq] at hr
    subst hr
    intro c hc
    have hlen : s.clusters.length = 0 := by
      rw [hS.1]
      omega
    rw [List.length_eq_zero.mp hlen] at hc
    exact absurd hc (List.not_mem_nil c)

/-- C3 at a concrete input: the first pass on the points `A`, `B`, `C`, `D` with `k = 2`
leaves cluster 1 with the members `B`, `C`, `D` and the centroid `(22/3, 20/3)`. -/
theorem pass_centroid_is_mean_witness :
    pass (KMeanClustering.mk 2 2
        [Point.mk "A" (-1) [0, 0], Point.mk "B" (-1) [1, 0], Point.mk "C" (-1) [10, 10],
          Point.mk "D" (-1) [11, 10]]
        [Cluster.mk 0 [0, 0] [], Cluster.mk 1 [1, 0] []])
      = some (KMeanClustering.mk 2 2
        [Point.mk "A" 0 [0, 0], Point.mk "B" 1 [1, 0], Point.mk "C" 1 [10, 10],
          Point.mk "D" 1 [11, 10]]
        [Cluster.mk 0 [0, 0] [Point.mk "A" 0 [0, 0]],
          Cluster.mk 1 [22 / 3, 20 / 3]
            [Point.mk "B" 1 [1, 0], Point.mk "C" 1 [10, 10], Point.mk "D" 1 [11, 10]]], true) ∧
    ∀ c, c ∈ [Cluster.mk 0 [0, 0] [Point.mk "A" 0 [0, 0]],
          Cluster.mk 1 [22 / 3, 20 / 3]
            [Point.mk "B" 1 [1, 0], Point.mk "C" 1 [10, 10], Point.mk "D" 1 [11, 10]]] →
      c.points ≠ [] → ∀ j : Nat, j < c.centroid_point.length →
      ∃ xs : List ℚ, c.points.map (fun q => q.values[j]?) = xs.map some ∧
        c.centroid_point[j]? = some (xs.sum / (c.points.length : ℚ)) :=
  ⟨by decide!,
   pass_centroid_is_mean
    (KMeanClustering.mk 2 2
        [Point.mk "A" (-1) [0, 0], Point.mk "B" (-1) [1, 0], Point.mk "C" (-1) [10, 10],
          Point.mk "D" (-1) [11, 10]]
        [Cluster.mk 0 [0, 0] [], Cluster.mk 1 [1, 0] []])
    (Reachable.init 2 [("A", [0, 0]), ("B", [1, 0]), ("C", [10, 10]), ("D", [11, 10])] _
      (by decide!))
    (KMeanClustering.mk 2 2
        [Point.mk "A" 0 [0, 0], Point.mk "B" 1 [1, 0], Point.mk "C" 1 [10, 10],
          Point.mk "D" 1 [11, 10]]
        [Cluster.mk 0 [0, 0] [Point.mk "A" 0 [0, 0]],
          Cluster.mk 1 [22 / 3, 20 / 3]
            [Point.mk "B" 1 [1, 0], Point.mk "C" 1 [10, 10], Point.mk "D" 1 [11, 10]]], true)
    (by decide!)⟩

/-! ## The `change` flag and the loop of `run` -/

/-- An iteration of the assignment loop either sets `change` or leaves the state as it
was. -/
theorem assign_point_flag (i : Nat) (st r : KMeanClustering × Bool)
    (h : assign_point i st = some r) : r.2 = true ∨ r = st := by
  unfold assign_point at h
  cases hp : st.1.points[i]? with
  | none => rw [hp] at h; exact Option.noConfusion h
  | some p =>
    rw [hp] at h
    simp only [Option.some_bind] at h
    cases hg : get_nearest_cluster st.1 p with
    | none => rw [hg] at h; exact Option.noConfusion h
    | some v =>
      rw [hg] at h
      simp only [Option.some_bind] at h
      by_cases hv : v ≠ -1
      · rw [if_pos hv] at h
        left
        simp only [Option.bind_eq_some] at h
        obtain ⟨_, _, _, _, h⟩ := h
        simp only [Option.some.injEq] at h
        rw [← h]
      · rw [if_neg hv] at h
        right
        exact (Option.some.inj h).symm

/-- An assignment loop that ends with `change` unset has changed nothing. -/
theorem assign_loop_no_change (s t : KMeanClustering) (n : Nat)
    (h : forLoop n assign_point (s, false) = some (t, false)) : t = s := by
  induction n generalizing t with
  | zero =>
    simp only [forLoop, Option.some.injEq, Prod.mk.injEq, and_true] at h
    exact h.symm
  | succ n ih =>
    obtain ⟨x, hx, hstep⟩ := forLoop_succ_some n _ _ _ h
    rcases assign_point_flag n x _ hstep with hflag | heq
    · exact absurd hflag (by simp)
    · rw [← heq] at hx
      exact ih t hx

theorem recompute_centroid_points (i : Nat) (s r : KMeanClustering)
    (h : recompute_centroid i s = some r) : r.points = s.points := by
  unfold recompute_centroid at h
  cases hc : s.clusters[i]? with
  | none => rw [hc] at h; exact Option.noConfusion h
  | some cl =>
    rw [hc] at h
    simp only [Option.some_bind] at h
    by_cases h0 : cl.points.length = 0
    · rw [if_pos h0] at h
      rw [← Option.some.inj h]
    · rw [if_neg h0] at h
      cases ht : totals cl.points with
      | none => rw [ht] at h; exact Option.noConfusion h
      | some t =>
        rw [ht] at h
        simp only [Option.some_bind, Option.some.injEq] at h
        rw [← h]

/-- The centroid loop leaves the points alone. -/
theorem recompute_loop_points (s r : KMeanClustering) (n : Nat)
    (h : forLoop n recompute_centroid s = some r) : r.points = s.points := by
  induction n generalizing r with
  | zero =>
    simp only [forLoop, Option.some.injEq] at h
    rw [h]
  | succ n ih =>
    obtain ⟨x, hx, hstep⟩ := forLoop_succ_some n _ _ _ h
    rw [recompute_centroid_points n x r hstep, ih x hx]

/-- A pass that leaves `change` unset has left every point as it was. -/
theorem pass_no_change (s s' : KMeanClustering) (h : pass s = some (s', false)) :
    s'.points = s.points := by
  unfold pass at h
  cases hst : forLoop s.points.length assign_point (s, false) with
  | none => rw [hst] at h; exact Option.noConfusion h
  | some st =>
    rw [hst] at h
    simp only [Option.some_bind] at h
    cases hs2 : forLoop s.k.toNat recompute_centroid st.1 with
    | none => rw [hs2] at h; exact Option.noConfusion h
    | some s2 =>
      rw [hs2] at h
      simp only [Option.some_bind, Option.some.injEq, Prod.mk.injEq] at h
      obtain ⟨h1, h2⟩ := h
      subst h1
      have hst' : forLoop s.points.length assign_point (s, false) = some (st.1, false) := by
        rw [hst, ← h2]
      rw [recompute_loop_points _ _ _ hs2, assign_loop_no_change s st.1 _ hst']

/-- Every entry of the list of passes of the loop of `run` is the result of a pass
started in the state before it; a pass with `change` unset is the last one, and every
pass but the last has `change` set. -/
theorem run_loop_trace (max_iterations : Int) (fuel : Nat) (iterations : Int)
    (s : KMeanClustering) (tr : List (KMeanClustering × Bool))
    (h : run_loop max_iterations fuel iterations s = some tr) :
    ∀ (j : Nat) (r : KMeanClustering × Bool), tr[j]? = some r →
      pass (state_before s tr j) = some r ∧ (r.2 = false → j + 1 = tr.length) := by
  induction fuel generalizing iterations s tr with
  | zero =>
    unfold run_loop at h
    split at h
    · exact Option.noConfusion h
    · simp only [Option.some.injEq] at h
      subst h
      intro j r hj
      simp at hj
  | succ fuel ih =>
    unfold run_loop at h
    split at h
    · cases hp : pass s with
      | none => rw [hp] at h; exact Option.noConfusion h
      | some r0 =>
        rw [hp] at h
        simp only [Option.some_bind] at h
        split at h
        · simp only [Option.some.injEq] at h
          subst h
          intro j r hj
          cases j with
          | zero =>
            simp only [List.getElem?_cons_zero, Option.some.injEq] at hj
            subst hj
            exact ⟨hp, fun _ => rfl⟩
          | succ j => simp at hj
        · rename_i hflag
          cases hrest : run_loop max_iterations fuel (iterations + 1) r0.1 with
          | none => rw [hrest] at h; exact Option.noConfusion h
          | some rest =>
            rw [hrest] at h
            simp only [Option.map_some', Option.some.injEq] at h
            subst h
            intro j r hj
            cases j with
            | zero =>
              simp only [List.getElem?_cons_zero, Option.some.injEq] at hj
              subst hj
              refine ⟨hp, fun hf => ?_⟩
              rw [hf] at hflag
              exact absurd rfl hflag
            | succ j =>
              simp only [List.getElem?_cons_succ] at hj
              obtain ⟨h1, h2⟩ := ih (iterations + 1) r0.1 rest hrest j r hj
              refine ⟨?_, fun hf => by simp [h2 hf]⟩
              cases j with
              | zero => simpa [state_before] using h1
              | succ j =>
                simp only [state_before, List.getElem?_cons_succ] at h1 ⊢
                cases hj' : rest[j]? with
                | none =>
                  have hlt := (List.getElem?_eq_some.mp hj).1
                  have : rest[j]? ≠ none := by
                    rw [List.getElem?_eq_getElem (by omega)]
                    simp
                  exact absurd hj' this
                | some r' =>
                  rw [hj'] at h1
                  exact h1
    · simp only [Option.some.injEq] at h
      subst h
      intro j r hj
      simp at hj

/-- C10: when `run(max_iterations)` leaves its loop through `if (!change) break;`, that
is, when some pass of the run ends with `change` unset, that pass is the last pass of the
run and it changed no point's `cluster_id`: the ids after it are the ids of the state in
which it started. -/
theorem break_exit_is_stable (s : KMeanClustering) (max_iterations : Int)
    (s0 : KMeanClustering) (tr : List (KMeanClustering × Bool))
    (h : run_passes s max_iterations = some (s0, tr))
    (j : Nat) (r : KMeanClustering × Bool) (hj : tr[j]? = some r) (hbreak : r.2 = false) :
    j + 1 = tr.length ∧ pass (state_before s0 tr j) = some r ∧
      r.1.points.map (fun p => p.cluster_id)
        = (state_before s0 tr j).points.map (fun p => p.cluster_id) := by
  unfold run_passes at h
  cases hi : init_clusters s with
  | none => rw [hi] at h; exact Option.noConfusion h
  | some s1 =>
    rw [hi] at h
    simp only [Option.some_bind] at h
    cases hl : run_loop max_iterations (max_iterations + 1).toNat 0 s1 with
    | none => rw [hl] at h; exact Option.noConfusion h
    | some tr1 =>
      rw [hl] at h
      simp only [Option.map_some', Option.some.injEq, Prod.mk.injEq] at h
      obtain ⟨h1, h2⟩ := h
      subst h1
      subst h2
      obtain ⟨hp, hlast⟩ := run_loop_trace _ _ _ _ _ hl j r hj
      refine ⟨hlast hbreak, hp, ?_⟩
      have hr : r = (r.1, false) := by rw [← hbreak]
      rw [hr] at hp
      rw [pass_no_change _ _ hp]

/-- C10 at a concrete input: with `k = 0` the first pass assigns nothing, `change` stays
unset and `run(5)` leaves the loop through the `break`. -/
theorem break_exit_is_stable_witness :
    run_passes (engine_of_input 0 [("A", [0, 0])]) 5
      = some (KMeanClustering.mk 0 0 [Point.mk "A" (-1) [0, 0]] [],
          [(KMeanClustering.mk 0 0 [Point.mk "A" (-1) [0, 0]] [], false)]) ∧
    0 + 1 = [(KMeanClustering.mk 0 0 [Point.mk "A" (-1) [0, 0]] [], false)].length ∧
    pass (state_before (KMeanClustering.mk 0 0 [Point.mk "A" (-1) [0, 0]] [])
        [(KMeanClustering.mk 0 0 [Point.mk "A" (-1) [0, 0]] [], false)] 0)
      = some (KMeanClustering.mk 0 0 [Point.mk "A" (-1) [0, 0]] [], false) ∧
    (KMeanClustering.mk 0 0 [Point.mk "A" (-1) [0, 0]] [], false).1.points.map
        (fun p => p.cluster_id)
      = (state_before (KMeanClustering.mk 0 0 [Point.mk "A" (-1) [0, 0]] [])
          [(KMeanClustering.mk 0 0 [Point.mk "A" (-1) [0, 0]] [], false)] 0).points.map
          (fun p => p.cluster_id) :=
  ⟨by decide!,
   break_exit_is_stable (engine_of_input 0 [("A", [0, 0])]) 5
    (KMeanClustering.mk 0 0 [Point.mk "A" (-1) [0, 0]] [])
    [(KMeanClustering.mk 0 0 [Point.mk "A" (-1) [0, 0]] [], false)]
    (by decide!) 0 (KMeanClustering.mk 0 0 [Point.mk "A" (-1) [0, 0]] [], false) rfl rfl⟩

/-- C6, evaluated: on the single point `A = (0, 0)` with `k = 1`, `run(3)` executes four
passes. The second pass leaves the `cluster_id` of `A` at 0, as the first pass set it,
yet every pass ends with `change` set, so the run does not stop after the second pass. -/
theorem run_continues_after_stable_pass :
    (run_passes (engine_of_input 1 [("A", [0, 0])]) 3).map
        (fun x => x.2.map (fun r => (r.1.points.map (fun p => p.cluster_id), r.2)))
      = some [([0], true), ([0], true), ([0], true), ([0], true)] := by
  decide!

/-- C7, evaluated: on the single point `A = (0, 0)` with `k = 1`, `run(0)` executes one
pass and `run(2)` executes three passes. -/
theorem run_exceeds_max_iterations :
    (run_passes (engine_of_input 1 [("A", [0, 0])]) 0).map (fun x => x.2.length) = some 1 ∧
    (run_passes (engine_of_input 1 [("A", [0, 0])]) 2).map (fun x => x.2.length) = some 3 := by
  decide!

/-- C8: on the points `A = (0,0)`, `B = (1,0)`, `C = (10,10)`, `D = (11,10)` in that
order with `k = 2`, `run(10)` ends with cluster 0 at centroid `(1/2, 0)` with members
`A`, `B` and cluster 1 at centroid `(21/2, 10)` with members `C`, `D`; the clusters have
these members already after the second pass. -/
theorem worked_example :
    run (engine_of_input 2 [("A", [0, 0]), ("B", [1, 0]), ("C", [10, 10]), ("D", [11, 10])]) 10
      = some (KMeanClustering.mk 2 2
          [Point.mk "A" 0 [0, 0], Point.mk "B" 0 [1, 0], Point.mk "C" 1 [10, 10],
            Point.mk "D" 1 [11, 10]]
          [Cluster.mk 0 [1 / 2, 0] [Point.mk "A" 0 [0, 0], Point.mk "B" 0 [1, 0]],
            Cluster.mk 1 [21 / 2, 10] [Point.mk "C" 1 [10, 10], Point.mk "D" 1 [11, 10]]]) ∧
    (run_passes
        (engine_of_input 2 [("A", [0, 0]), ("B", [1, 0]), ("C", [10, 10]), ("D", [11, 10])])
        10).map (fun x => x.2[1]?.map (fun r => r.1.clusters.map (fun c => c.points)))
      = some (some [[Point.mk "A" 0 [0, 0], Point.mk "B" 0 [1, 0]],
          [Point.mk "C" 1 [10, 10], Point.mk "D" 1 [11, 10]]]) := by
  decide!

/-! ## The partition of the points -/

theorem nodup_filter_name (l : List Point) (hnd : (l.map fun p => p.name).Nodup) (p : Point)
    (hp : p ∈ l) : l.filter (fun q => decide (q.name = p.name)) = [p] := by
  induction l with
  | nil => exact absurd hp (List.not_mem_nil p)
  | cons a l ih =>
    simp only [List.map_cons, List.nodup_cons, List.mem_map, not_exists, not_and] at hnd
    obtain ⟨hnot, hnd'⟩ := hnd
    rcases List.mem_cons.mp hp with rfl | hpl
    · rw [List.filter_cons, if_pos (by simp)]
      congr 1
      rw [List.filter_eq_nil_iff]
      intro q hq hname
      exact hnot q hq (by simpa using hname)
    · have hne : ¬ a.name = p.name := fun e => hnot p hpl e.symm
      rw [List.filter_cons, if_neg (by simpa using hne)]
      exact ih hnd' hpl

/-- The indices below `K` that equal `x`: one if `0 ≤ x < K`, none otherwise. -/
theorem count_range_filter (l : List Point) (K : Nat) :
    ((List.range K).map fun (c : Nat) => (l.filter fun q => decide (q.cluster_id = (c : Int))).length).sum
      = (l.filter fun q => decide (0 ≤ q.cluster_id ∧ q.cluster_id < (K : Int))).length := by
  induction K with
  | zero =>
    simp only [List.range_zero, List.map_nil, List.sum_nil]
    symm
    rw [List.length_eq_zero, List.filter_eq_nil_iff]
    intro a _
    simp only [decide_eq_true_eq]
    omega
  | succ K ih =>
    rw [List.sum_range_succ, ih, ← List.countP_eq_length_filter, ← List.countP_eq_length_filter,
      ← List.countP_eq_length_filter]
    clear ih
    induction l with
    | nil => rfl
    | cons a l ihl =>
      rw [List.countP_cons, List.countP_cons, List.countP_cons]
      by_cases h1 : a.cluster_id = (K : Int)
      · have h2 : ¬ (0 ≤ a.cluster_id ∧ a.cluster_id < (K : Int)) := by omega
        have h3 : 0 ≤ a.cluster_id ∧ a.cluster_id < ((K + 1 : Nat) : Int) := by omega
        rw [if_neg (by simpa using h2), if_pos (by simpa using h1), if_pos (by simpa using h3)]
        omega
      · by_cases h2 : 0 ≤ a.cluster_id ∧ a.cluster_id < (K : Int)
        · have h3 : 0 ≤ a.cluster_id ∧ a.cluster_id < ((K + 1 : Nat) : Int) := by omega
          rw [if_pos (by simpa using h2), if_neg (by simpa using h1),
            if_pos (by simpa using h3)]
          omega
        · have h3 : ¬ (0 ≤ a.cluster_id ∧ a.cluster_id < ((K + 1 : Nat) : Int)) := by omega
          rw [if_neg (by simpa using h2), if_neg (by simpa using h1),
            if_neg (by simpa using h3)]
          omega

/-- With unique names the bookkeeping invariant gives the partition: every assigned
point is the only member of its name in the cluster of its `cluster_id`, no other
cluster has a member of that name, and the member counts add up to the number of
assigned points. -/
theorem shape_partition (s : KMeanClustering) (hS : Shape s)
    (hnd : (s.points.map fun p => p.name).Nodup) :
    (∀ p, p ∈ s.points → p.cluster_id ≠ -1 →
      ∃ (c : Nat) (cl : Cluster), (c : Int) = p.cluster_id ∧ s.clusters[c]? = some cl ∧
        cl.points.filter (fun q => decide (q.name = p.name)) = [p] ∧
        ∀ (c' : Nat) (cl' : Cluster), c' ≠ c → s.clusters[c']? = some cl' →
          ∀ q, q ∈ cl'.points → q.name ≠ p.name) ∧
    (s.clusters.map fun cl => cl.points.length).sum
      = (s.points.filter fun p => decide (p.cluster_id ≠ -1)).length := by
  obtain ⟨hlen, hids, hmem⟩ := hS
  have hpts : ∀ (c : Nat) (cl : Cluster), s.clusters[c]? = some cl →
      cl.points = s.points.filter (fun q => decide (q.cluster_id = (c : Int))) := by
    intro c cl hc
    have := hmem c (List.getElem?_eq_some.mp hc).1
    rw [hc] at this
    simpa using this
  constructor
  · intro p hp hne
    rcases hids p hp with h | ⟨h0, h1⟩
    · exact absurd h hne
    · have hc : p.cluster_id.toNat < s.clusters.length := by omega
      have hcast : ((p.cluster_id.toNat : Nat) : Int) = p.cluster_id := by omega
      refine ⟨p.cluster_id.toNat, s.clusters[p.cluster_id.toNat], hcast,
        List.getElem?_eq_getElem hc, ?_, ?_⟩
      · rw [hpts _ _ (List.getElem?_eq_getElem hc), List.filter_filter]
        have : (s.points.filter fun a => decide (a.name = p.name) &&
            decide (a.cluster_id = ((p.cluster_id.toNat : Nat) : Int)))
            = (s.points.filter fun q => decide (q.name = p.name)).filter
                (fun a => decide (a.cluster_id = ((p.cluster_id.toNat : Nat) : Int))) := by
          rw [List.filter_filter]
          apply List.filter_congr
          intro x _
          exact Bool.and_comm _ _
        rw [this, nodup_filter_name s.points hnd p hp, List.filter_cons, if_pos (by simpa using hcast.symm)]
        rfl
      · intro c' cl' hcc hcl' q hq hname
        rw [hpts _ _ hcl', List.mem_filter] at hq
        obtain ⟨hqm, hqid⟩ := hq
        have hqp : q = p := List.inj_on_of_nodup_map hnd hqm hp hname
        subst hqp
        simp only [decide_eq_true_eq] at hqid
        omega
  · have hmap : (s.clusters.map fun cl => cl.points.length)
        = (List.range s.clusters.length).map fun (c : Nat) =>
            (s.points.filter fun q => decide (q.cluster_id = (c : Int))).length := by
      apply List.ext_getElem?
      intro c
      rw [List.getElem?_map, List.getElem?_map]
      by_cases hc : c < s.clusters.length
      · rw [List.getElem?_eq_getElem hc, List.getElem?_range hc]
        simp only [Option.map_some', Option.some.injEq]
        rw [hpts c _ (List.getElem?_eq_getElem hc)]
      · rw [List.getElem?_eq_none (by omega), List.getElem?_eq_none (by simpa using hc)]
        rfl
    rw [hmap, count_range_filter]
    congr 1
    apply List.filter_congr
    intro p hp
    rcases hids p hp with h | ⟨h0, h1⟩
    · have : ¬ (0 ≤ p.cluster_id ∧ p.cluster_id < (s.clusters.length : Int)) := by omega
      simp [h]
    · have h2 : 0 ≤ p.cluster_id ∧ p.cluster_id < (s.clusters.length : Int) := by omega
      have h3 : p.cluster_id ≠ -1 := by omega
      simp [h2, h3]

theorem passes_succ_some (m : Nat) (s0 s : KMeanClustering) (h : passes (m + 1) s0 = some s) :
    ∃ (t : KMeanClustering) (r : KMeanClustering × Bool),
      passes m s0 = some t ∧ pass t = some r ∧ r.1 = s := by
  simp only [passes] at h
  cases ht : passes m s0 with
  | none => rw [ht] at h; exact Option.noConfusion h
  | some t =>
    rw [ht] at h
    simp only [Option.some_bind] at h
    cases hr : pass t with
    | none => rw [hr] at h; exact Option.noConfusion h
    | some r =>
      rw [hr] at h
      simp only [Option.map_some', Option.some.injEq] at h
      exact ⟨t, r, rfl, hr, h⟩

/-- Passes with `k ≥ 1` keep the bookkeeping invariant, `k` and the names of the
points. -/
theorem passes_shape (s0 : KMeanClustering) (hS : Shape s0) (hk : 1 ≤ s0.k) (m : Nat)
    (s : KMeanClustering) (hm : passes m s0 = some s) :
    Shape s ∧ s.k = s0.k ∧
      (s.points.map fun p => p.name) = (s0.points.map fun p => p.name) := by
  induction m generalizing s with
  | zero =>
    simp only [passes, Option.some.injEq] at hm
    subst hm
    exact ⟨hS, rfl, rfl⟩
  | succ m ih =>
    obtain ⟨t, r, ht, hr, hrs⟩ := passes_succ_some m s0 s hm
    obtain ⟨hSt, hkt, hnt⟩ := ih t ht
    obtain ⟨hr1, hnear, _⟩ := pass_defined t hSt (by omega) r hr
    subst hrs
    rw [hr1]
    refine ⟨shape_pass_fn t hSt hnear, hkt, ?_⟩
    rw [← hnt]
    simp only [pass_fn, List.map_map]
    rfl

/-- C4: on input with unique point names and `1 ≤ k ≤` number of points,
`init_clusters` is defined, and after it and after every pass every point whose
`cluster_id` is not `-1` is in the member list of the cluster indexed by its
`cluster_id`, exactly once (it is the only member of its name there), no other cluster
has a member of that name, and the member counts of all clusters add up to the number of
assigned points. -/
theorem partition_invariant (k : Int) (input : List (String × List ℚ)) (hk : 1 ≤ k)
    (hkn : k ≤ (input.length : Int)) (huniq : (input.map fun r => r.1).Nodup) :
    ∃ s0 : KMeanClustering, init_clusters (engine_of_input k input) = some s0 ∧
    ∀ (m : Nat) (s : KMeanClustering), passes m s0 = some s →
      (∀ p, p ∈ s.points → p.cluster_id ≠ -1 →
        ∃ (c : Nat) (cl : Cluster), (c : Int) = p.cluster_id ∧ s.clusters[c]? = some cl ∧
          cl.points.filter (fun q => decide (q.name = p.name)) = [p] ∧
          ∀ (c' : Nat) (cl' : Cluster), c' ≠ c → s.clusters[c']? = some cl' →
            ∀ q, q ∈ cl'.points → q.name ≠ p.name) ∧
      (s.clusters.map fun cl => cl.points.length).sum
        = (s.points.filter fun p => decide (p.cluster_id ≠ -1)).length := by
  obtain ⟨s0, h0, _⟩ := init_clusters_eq k (input.map fun r => Point.mk_new r.1 r.2)
    (by simp; omega)
  have h0' : init_clusters (engine_of_input k input) = some s0 := h0
  refine ⟨s0, h0', ?_⟩
  intro m s hm
  obtain ⟨hS0, hk0, hp0, _⟩ := init_shape k input s0 h0'
  obtain ⟨hS, _, hnames⟩ := passes_shape s0 hS0 (by omega) m s hm
  apply shape_partition s hS
  rw [hnames, hp0, List.map_map]
  exact huniq

/-- C4 at a concrete input: the points `A`, `B`, `C`, `D` with `k = 2`; two passes from
the initial state are defined. -/
theorem partition_invariant_witness :
    passes 2 (KMeanClustering.mk 2 2
        [Point.mk "A" (-1) [0, 0], Point.mk "B" (-1) [1, 0], Point.mk "C" (-1) [10, 10],
          Point.mk "D" (-1) [11, 10]]
        [Cluster.mk 0 [0, 0] [], Cluster.mk 1 [1, 0] []])
      = some (KMeanClustering.mk 2 2
          [Point.mk "A" 0 [0, 0], Point.mk "B" 0 [1, 0], Point.mk "C" 1 [10, 10],
            Point.mk "D" 1 [11, 10]]
          [Cluster.mk 0 [1 / 2, 0] [Point.mk "A" 0 [0, 0], Point.mk "B" 0 [1, 0]],
            Cluster.mk 1 [21 / 2, 10] [Point.mk "C" 1 [10, 10], Point.mk "D" 1 [11, 10]]]) ∧
    ∃ s0 : KMeanClustering,
      init_clusters (engine_of_input 2
        [("A", [0, 0]), ("B", [1, 0]), ("C", [10, 10]), ("D", [11, 10])]) = some s0 ∧
    ∀ (m : Nat) (s : KMeanClustering), passes m s0 = some s →
      (∀ p, p ∈ s.points → p.cluster_id ≠ -1 →
        ∃ (c : Nat) (cl : Cluster), (c : Int) = p.cluster_id ∧ s.clusters[c]? = some cl ∧
          cl.points.filter (fun q => decide (q.name = p.name)) = [p] ∧
          ∀ (c' : Nat) (cl' : Cluster), c' ≠ c → s.clusters[c']? = some cl' →
            ∀ q, q ∈ cl'.points → q.name ≠ p.name) ∧
      (s.clusters.map fun cl => cl.points.length).sum
        = (s.points.filter fun p => decide (p.cluster_id ≠ -1)).length :=
  ⟨by decide!,
   partition_invariant 2 [("A", [0, 0]), ("B", [1, 0]), ("C", [10, 10]), ("D", [11, 10])]
    (by decide) (by decide) (by decide!)⟩

/-! ## Fixed points -/

theorem recentre_idem (X : Cluster) : recentre (recentre X) = recentre X := by
  by_cases h : X.points.length = 0
  · simp [recentre, h]
  · simp [recentre, h]

/-- A pass changes nothing in an engine whose points already carry their nearest cluster
and whose centroids are already updated. -/
theorem pass_fn_fixed (t : KMeanClustering) (hS : Shape t)
    (hre : ∀ cl, cl ∈ t.clusters → recentre cl = cl)
    (hid : ∀ p, p ∈ t.points → reassign t p = p) : pass_fn t = t := by
  have hpts : t.points.map (reassign t) = t.points := by
    conv_rhs => rw [← List.map_id t.points]
    apply List.map_congr_left
    intro p hp
    exact hid p hp
  obtain ⟨_, _, hmem⟩ := hS
  cases t with
  | mk id k points clusters =>
    simp only [pass_fn, KMeanClustering.mk.injEq, true_and] at hpts ⊢
    refine ⟨hpts, ?_⟩
    rw [hpts]
    apply List.ext_getElem?
    intro c
    rw [List.getElem?_mapIdx]
    cases hc : clusters[c]? with
    | none => rfl
    | some cl =>
      have hlt : c < clusters.length := (List.getElem?_eq_some.mp hc).1
      have hm := hmem c hlt
      simp only [hc, Option.map_some', Option.some.injEq] at hm
      have hclm : cl ∈ clusters := by
        rw [List.mem_iff_getElem?]
        exact ⟨c, hc⟩
      simp only [Option.map_some', Option.some.injEq]
      rw [← hm]
      exact hre cl hclm

/-- Passes keep consistency, and after at least one pass every centroid is up to date
with its member list. -/
theorem passes_consistent (s0 : KMeanClustering) (hC : Consistent s0) (m : Nat)
    (t : KMeanClustering) (ht : passes m s0 = some t) :
    Consistent t ∧ (0 < m → ∀ cl, cl ∈ t.clusters → recentre cl = cl) := by
  induction m generalizing t with
  | zero =>
    simp only [passes, Option.some.injEq] at ht
    subst ht
    exact ⟨hC, fun h => absurd h (Nat.lt_irrefl 0)⟩
  | succ m ih =>
    obtain ⟨u, r, hu, hr, hrs⟩ := passes_succ_some m s0 t ht
    obtain ⟨hCu, _⟩ := ih u hu
    rw [pass_eq u hCu] at hr
    simp only [Option.some.injEq] at hr
    subst hr
    subst hrs
    refine ⟨consistent_pass_fn u hCu, fun _ cl hcl => ?_⟩
    obtain ⟨c, a, _, rfl⟩ := mem_mapIdx _ _ _ hcl
    exact recentre_idem _

/-- C9: on two-coordinate input with `1 ≤ k ≤` number of points, take the state reached
by `init_clusters` followed by `m + 1` passes. If the last of these passes left every
point's `cluster_id` unchanged, then one further pass is defined and again leaves every
point's `cluster_id` unchanged, and it leaves every cluster (its `centroid_point` and its
member list) unchanged. -/
theorem fixed_point_idempotent (k : Int) (input : List (String × List ℚ)) (hk : 1 ≤ k)
    (hkn : k ≤ (input.length : Int)) (hdim : ∀ r, r ∈ input → r.2.length = 2)
    (s0 : KMeanClustering) (h0 : init_clusters (engine_of_input k input) = some s0)
    (m : Nat) (t : KMeanClustering) (ht : passes m s0 = some t)
    (r : KMeanClustering × Bool) (hr : pass t = some r)
    (hsame : r.1.points.map (fun p => p.cluster_id) = t.points.map (fun p => p.cluster_id)) :
    ∃ r2 : KMeanClustering × Bool, pass r.1 = some r2 ∧
      r2.1.points.map (fun p => p.cluster_id) = r.1.points.map (fun p => p.cluster_id) ∧
      r2.1.clusters.map (fun c => c.centroid_point)
        = r.1.clusters.map (fun c => c.centroid_point) ∧
      r2.1.clusters.map (fun c => c.points) = r.1.clusters.map (fun c => c.points) := by
  obtain ⟨s0', h0', hC0⟩ := init_consistent k input hk hkn hdim
  have hs : s0' = s0 := by
    rw [h0] at h0'
    exact (Option.some.inj h0').symm
  subst hs
  obtain ⟨hCt, hfix⟩ := passes_consistent s0' hC0 m t ht
  have hr' := hr
  rw [pass_eq t hCt] at hr'
  simp only [Option.some.injEq] at hr'
  subst hr'
  simp only [pass_fn, List.map_map] at hsame
  have hid : ∀ p, p ∈ t.points → reassign t p = p := by
    intro p hp
    have := (List.map_inj_left.mp hsame) p hp
    simp only [Function.comp_apply] at this
    cases p with
    | mk name cid values =>
      simp only [reassign, Point.mk.injEq, true_and, and_true] at this ⊢
      exact this
  have hm : 0 < m := by
    rcases Nat.eq_zero_or_pos m with h | h
    · exfalso
      subst h
      simp only [passes, Option.some.injEq] at ht
      subst ht
      obtain ⟨_, _, hpts, _⟩ := init_shape k input s0' h0
      have hin : input ≠ [] := by
        intro he
        rw [he] at hkn
        simp only [List.length_nil, Nat.cast_zero] at hkn
        omega
      obtain ⟨x, xs, hx⟩ := List.exists_cons_of_ne_nil hin
      have hp : Point.mk_new x.1 x.2 ∈ s0'.points := by
        rw [hpts, hx]
        simp
      have h1 := hid _ hp
      obtain ⟨i, _, hi⟩ := consistent_nearest s0' hCt _ (hCt.2.2.1 _ hp)
      have h2 := congrArg Point.cluster_id h1
      have h3 : (reassign s0' (Point.mk_new x.1 x.2)).cluster_id = (i : Int) := by
        simp only [reassign, hi, Option.getD_some]
      have h4 : (Point.mk_new x.1 x.2).cluster_id = -1 := rfl
      rw [h3, h4] at h2
      omega
    · exact h
  have hfixed : pass_fn t = t := pass_fn_fixed t hCt.2.1 (hfix hm) hid
  refine ⟨(pass_fn t, decide (0 < t.points.length)), ?_, rfl, rfl, rfl⟩
  show pass (pass_fn t) = some (pass_fn t, decide (0 < t.points.length))
  rw [hfixed]
  rw [hfixed] at hr
  exact hr

/-- C9 at a concrete input: the points `A`, `B`, `C`, `D` with `k = 2`; the third pass
leaves every `cluster_id` as the second pass set it. -/
theorem fixed_point_idempotent_witness :
    ∃ r2 : KMeanClustering × Bool,
      pass (KMeanClustering.mk 2 2
          [Point.mk "A" 0 [0, 0], Point.mk "B" 0 [1, 0], Point.mk "C" 1 [10, 10],
            Point.mk "D" 1 [11, 10]]
          [Cluster.mk 0 [1 / 2, 0] [Point.mk "A" 0 [0, 0], Point.mk "B" 0 [1, 0]],
            Cluster.mk 1 [21 / 2, 10] [Point.mk "C" 1 [10, 10], Point.mk "D" 1 [11, 10]]])
        = some r2 ∧
      r2.1.points.map (fun p => p.cluster_id) = [0, 0, 1, 1] ∧
      r2.1.clusters.map (fun c => c.centroid_point) = [[1 / 2, 0], [21 / 2, 10]] ∧
      r2.1.clusters.map (fun c => c.points)
        = [[Point.mk "A" 0 [0, 0], Point.mk "B" 0 [1, 0]],
           [Point.mk "C" 1 [10, 10], Point.mk "D" 1 [11, 10]]] :=
  fixed_point_idempotent 2 [("A", [0, 0]), ("B", [1, 0]), ("C", [10, 10]), ("D", [11, 10])]
    (by decide) (by decide) (by decide)
    (KMeanClustering.mk 2 2
      [Point.mk "A" (-1) [0, 0], Point.mk "B" (-1) [1, 0], Point.mk "C" (-1) [10, 10],
        Point.mk "D" (-1) [11, 10]]
      [Cluster.mk 0 [0, 0] [], Cluster.mk 1 [1, 0] []])
    (by decide!) 2
    (KMeanClustering.mk 2 2
      [Point.mk "A" 0 [0, 0], Point.mk "B" 0 [1, 0], Point.mk "C" 1 [10, 10],
        Point.mk "D" 1 [11, 10]]
      [Cluster.mk 0 [1 / 2, 0] [Point.mk "A" 0 [0, 0], Point.mk "B" 0 [1, 0]],
        Cluster.mk 1 [21 / 2, 10] [Point.mk "C" 1 [10, 10], Point.mk "D" 1 [11, 10]]])
    (by decide!)
    (KMeanClustering.mk 2 2
      [Point.mk "A" 0 [0, 0], Point.mk "B" 0 [1, 0], Point.mk "C" 1 [10, 10],
        Point.mk "D" 1 [11, 10]]
      [Cluster.mk 0 [1 / 2, 0] [Point.mk "A" 0 [0, 0], Point.mk "B" 0 [1, 0]],
        Cluster.mk 1 [21 / 2, 10] [Point.mk "C" 1 [10, 10], Point.mk "D" 1 [11, 10]]], true)
    (by decide!) (by decide!)

/-! ## Reachable states are consistent, and `run` is defined on them -/

/-- Every reachable state with `k ≥ 1` and two-coordinate points is consistent. -/
theorem reachable_consistent (s : KMeanClustering) (h : Reachable s) :
    1 ≤ s.k → (∀ p, p ∈ s.points → p.values.length = 2) → Consistent s := by
  induction h with
  | init k input s0 h0 =>
    intro hk hdim
    obtain ⟨hS, hk0, hpts, hcl⟩ := init_shape k input s0 h0
    refine ⟨hk, hS, hdim, ?_⟩
    intro c hc
    rw [List.mem_iff_getElem?] at hc
    obtain ⟨i, hi⟩ := hc
    have hilt : i < s0.clusters.length := (List.getElem?_eq_some.mp hi).1
    obtain ⟨r, hr1, hr2⟩ := hcl i (by rw [← hk0, ← hS.1]; exact hilt)
    rw [hi] at hr2
    simp only [Option.some.injEq] at hr2
    subst hr2
    have hrm : Point.mk_new r.1 r.2 ∈ s0.points := by
      rw [hpts, List.mem_map]
      exact ⟨r, List.mem_iff_getElem?.mpr ⟨i, hr1⟩, rfl⟩
    exact le_of_eq (hdim _ hrm).symm
  | step s r hs hr ih =>
    intro hk hdim
    have hS := reachable_shape s hs
    by_cases hks : 1 ≤ s.k
    · obtain ⟨hr1, _, _⟩ := pass_defined s hS hks r hr
      subst hr1
      have hC : Consistent s := by
        apply ih hks
        intro p hp
        have := hdim (reassign s p) (by simp only [pass_fn, List.mem_map]; exact ⟨p, hp, rfl⟩)
        exact this
      exact consistent_pass_fn s hC
    · rw [pass_nonpos s (by omega)] at hr
      simp only [Option.some.injEq] at hr
      subst hr
      exact absurd hk hks

/-- The loop of `run` is defined on every consistent state: the bound on the number of
passes that `run` passes to `run_loop` is never too small. -/
theorem run_loop_defined (max_iterations : Int) (fuel : Nat) (iterations : Int)
    (s : KMeanClustering) (h : Consistent s)
    (hfuel : fuel = (max_iterations + 1 - iterations).toNat) :
    ∃ tr, run_loop max_iterations fuel iterations s = some tr := by
  induction fuel generalizing iterations s with
  | zero =>
    unfold run_loop
    rw [if_neg (by omega)]
    exact ⟨[], rfl⟩
  | succ fuel ih =>
    unfold run_loop
    rw [if_pos (by omega), pass_eq s h]
    simp only [Option.some_bind]
    split
    · exact ⟨_, rfl⟩
    · obtain ⟨tr, htr⟩ := ih (iterations + 1) (pass_fn s) (consistent_pass_fn s h) (by omega)
      rw [htr]
      exact ⟨_, rfl⟩

/-! ## Checked divisions -/

/-- The divisions of the centroid loop are guarded by `cluster_size == 0`: checking them
changes nothing. -/
theorem recompute_centroid_checked_eq (i : Nat) (s : KMeanClustering) :
    recompute_centroid_checked i s = recompute_centroid i s := by
  unfold recompute_centroid_checked recompute_centroid
  cases s.clusters[i]? with
  | none => rfl
  | some cluster =>
    simp only [Option.some_bind]
    by_cases h0 : cluster.points.length = 0
    · rw [if_pos h0, if_pos h0]
    · rw [if_neg h0, if_neg h0]
      cases totals cluster.points with
      | none => rfl
      | some t => simp [checked_div, h0]

theorem pass_checked_eq (s : KMeanClustering) : pass_checked s = pass s := by
  unfold pass_checked pass
  have : recompute_centroid_checked = recompute_centroid := by
    funext i t
    exact recompute_centroid_checked_eq i t
  rw [this]

theorem run_loop_checked_eq (max_iterations : Int) (fuel : Nat) (iterations : Int)
    (s : KMeanClustering) :
    run_loop_checked max_iterations fuel iterations s
      = run_loop max_iterations fuel iterations s := by
  induction fuel generalizing iterations s with
  | zero => rfl
  | succ fuel ih =>
    unfold run_loop_checked run_loop
    rw [pass_checked_eq]
    simp only [ih]

theorem run_passes_checked_eq (s : KMeanClustering) (max_iterations : Int) :
    run_passes_checked s max_iterations = run_passes s max_iterations := by
  unfold run_passes_checked run_passes
  simp only [run_loop_checked_eq]

/-! ## `Cluster::remove_point` -/

theorem erase_first_named_absent (name : String) (l : List Point)
    (h : ∀ q, q ∈ l → q.name ≠ name) : erase_first_named name l = l := by
  induction l with
  | nil => rfl
  | cons a l ih =>
    have ha : ¬ a.name = name := h a (List.mem_cons_self a l)
    simp only [erase_first_named, if_neg ha]
    rw [ih (fun q hq => h q (List.mem_cons_of_mem a hq))]

theorem erase_first_named_present (name : String) (l : List Point)
    (h : ∃ q, q ∈ l ∧ q.name = name) :
    ∃ (before : List Point) (x : Point) (after : List Point),
      l = before ++ x :: after ∧ x.name = name ∧ (∀ q, q ∈ before → q.name ≠ name) ∧
      erase_first_named name l = before ++ after := by
  induction l with
  | nil =>
    obtain ⟨q, hq, _⟩ := h
    exact absurd hq (List.not_mem_nil q)
  | cons a l ih =>
    by_cases ha : a.name = name
    · refine ⟨[], a, l, rfl, ha, fun q hq => absurd hq (List.not_mem_nil q), ?_⟩
      simp [erase_first_named, ha]
    · have hex : ∃ q, q ∈ l ∧ q.name = name := by
        obtain ⟨q, hq, hn⟩ := h
        rcases List.mem_cons.mp hq with rfl | hql
        · exact absurd hn ha
        · exact ⟨q, hql, hn⟩
      obtain ⟨before, x, after, hl, hx, hb, he⟩ := ih hex
      refine ⟨a :: before, x, after, by rw [hl]; rfl, hx, ?_, ?_⟩
      · intro q hq
        rcases List.mem_cons.mp hq with rfl | hqb
        · exact ha
        · exact hb q hqb
      · simp only [erase_first_named, if_neg ha, he]
        rfl

/-- C15: `Cluster::remove_point(p)`. If no member has the name of `p`, the member list is
unchanged. Otherwise the member list is `before ++ x :: after` where `x` is the first
member with the name of `p` (no member of `before` has it), and the result is
`before ++ after`: exactly `x` is removed, the other members keep their order, and the
list is one shorter. In both cases `cluster_id` and `centroid_point` are unchanged. -/
theorem remove_point_spec (c : Cluster) (p : Point) :
    ((∀ q, q ∈ c.points → q.name ≠ p.name) → (c.remove_point p).points = c.points) ∧
    ((∃ q, q ∈ c.points ∧ q.name = p.name) →
      ∃ (before : List Point) (x : Point) (after : List Point),
        c.points = before ++ x :: after ∧ x.name = p.name ∧
        (∀ q, q ∈ before → q.name ≠ p.name) ∧
        (c.remove_point p).points = before ++ after ∧
        (c.remove_point p).points.length + 1 = c.points.length) ∧
    (c.remove_point p).cluster_id = c.cluster_id ∧
    (c.remove_point p).centroid_point = c.centroid_point := by
  refine ⟨fun h => erase_first_named_absent p.name c.points h, fun h => ?_, rfl, rfl⟩
  obtain ⟨before, x, after, hl, hx, hb, he⟩ := erase_first_named_present p.name c.points h
  refine ⟨before, x, after, hl, hx, hb, he, ?_⟩
  show (erase_first_named p.name c.points).length + 1 = c.points.length
  rw [he, hl]
  simp only [List.length_append, List.length_cons]
  omega

/-- C15 at a concrete cluster: two members are named `B`; removing a point named `B`
erases the first of them only. -/
theorem remove_point_spec_witness :
    (Cluster.remove_point
        (Cluster.mk 0 [1, 2]
          [Point.mk "A" 0 [0, 0], Point.mk "B" 0 [1, 0], Point.mk "C" 0 [2, 0],
            Point.mk "B" 0 [3, 0]])
        (Point.mk "B" 0 [9, 9])).points
      = [Point.mk "A" 0 [0, 0], Point.mk "C" 0 [2, 0], Point.mk "B" 0 [3, 0]] ∧
    ((∃ q, q ∈ [Point.mk "A" 0 [0, 0], Point.mk "B" 0 [1, 0], Point.mk "C" 0 [2, 0],
            Point.mk "B" 0 [3, 0]] ∧ q.name = "B") →
      ∃ (before : List Point) (x : Point) (after : List Point),
        [Point.mk "A" 0 [0, 0], Point.mk "B" 0 [1, 0], Point.mk "C" 0 [2, 0],
            Point.mk "B" 0 [3, 0]] = before ++ x :: after ∧ x.name = "B" ∧
        (∀ q, q ∈ before → q.name ≠ "B") ∧
        (Cluster.remove_point
          (Cluster.mk 0 [1, 2]
            [Point.mk "A" 0 [0, 0], Point.mk "B" 0 [1, 0], Point.mk "C" 0 [2, 0],
              Point.mk "B" 0 [3, 0]])
          (Point.mk "B" 0 [9, 9])).points = before ++ after ∧
        (Cluster.remove_point
          (Cluster.mk 0 [1, 2]
            [Point.mk "A" 0 [0, 0], Point.mk "B" 0 [1, 0], Point.mk "C" 0 [2, 0],
              Point.mk "B" 0 [3, 0]])
          (Point.mk "B" 0 [9, 9])).points.length + 1 = 4) :=
  ⟨by decide!,
   (remove_point_spec
    (Cluster.mk 0 [1, 2]
      [Point.mk "A" 0 [0, 0], Point.mk "B" 0 [1, 0], Point.mk "C" 0 [2, 0],
        Point.mk "B" 0 [3, 0]])
    (Point.mk "B" 0 [9, 9])).2.1⟩

/-! ## `k ≤ 0` -/

theorem init_nonpos (s : KMeanClustering) (hk : s.k ≤ 0) : init_clusters s = some s := by
  have hk0 : s.k.toNat = 0 := by omega
  unfold init_clusters
  rw [hk0]
  rfl

/-- With `k ≤ 0` a run builds no cluster, executes at most one pass, which assigns
nothing, and returns normally. -/
theorem run_passes_nonpos (s : KMeanClustering) (hk : s.k ≤ 0) (max_iterations : Int) :
    run_passes s max_iterations
      = some (s, if 0 ≤ max_iterations then [(s, false)] else []) := by
  unfold run_passes
  rw [init_nonpos s hk]
  simp only [Option.some_bind]
  by_cases hm : 0 ≤ max_iterations
  · obtain ⟨f, hf⟩ : ∃ f, (max_iterations + 1).toNat = f + 1 := ⟨max_iterations.toNat, by omega⟩
    rw [hf, if_pos hm]
    unfold run_loop
    rw [if_pos hm, pass_nonpos s hk]
    rfl
  · have hf : (max_iterations + 1).toNat = 0 := by omega
    rw [hf, if_neg hm]
    unfold run_loop
    rw [if_neg hm]
    rfl

/-- C14, amended: for every `k ≤ 0`, every point list and every `max_iterations`, `run`
reports no failure: it completes normally, with an empty cluster list and the points as
they were given. -/
theorem run_nonpos_completes (k : Int) (points : List Point) (hk : k ≤ 0)
    (max_iterations : Int) :
    ∃ s' : KMeanClustering, run (KMeanClustering.mk_new k points) max_iterations = some s' ∧
      s'.clusters = [] ∧ s'.points = points := by
  refine ⟨KMeanClustering.mk_new k points, ?_, rfl, rfl⟩
  unfold run
  rw [run_passes_nonpos _ hk]
  by_cases hm : 0 ≤ max_iterations
  · rw [if_pos hm]
    rfl
  · rw [if_neg hm]
    rfl

/-- C14 at a concrete input: `k = -1` and one point. -/
theorem run_nonpos_completes_witness :
    ∃ s' : KMeanClustering,
      run (KMeanClustering.mk_new (-1) [Point.mk_new "A" [0, 0]]) 10 = some s' ∧
      s'.clusters = [] ∧ s'.points = [Point.mk_new "A" [0, 0]] :=
  run_nonpos_completes (-1) [Point.mk_new "A" [0, 0]] (by decide) 10

/-- C14 as stated fails: with `k = 0` and the point `A = (0, 0)`, `run(10)` returns
normally, with an empty cluster list and `A` unassigned. -/
theorem run_nonpos_counterexample :
    run (engine_of_input 0 [("A", [0, 0])]) 10
      = some (KMeanClustering.mk 0 0 [Point.mk "A" (-1) [0, 0]] []) := by
  decide!

/-! ## Dimensions other than two -/

/-- C13, evaluated: on the three-coordinate points `A = (1, 2, 3)`, `B = (4, 5, 6)` with
`k = 1`, the first pass leaves a centroid with two coordinates, `(5/2, 7/2)`, and the
second pass reads `centroid_point[2]` outside the vector; on the one-coordinate point
`A = (5)` the first pass reads `values[1]` outside the vector. -/
theorem centroid_update_is_two_dimensional :
    ((init_clusters (engine_of_input 1 [("A", [1, 2, 3]), ("B", [4, 5, 6])])).bind
        (passes 1)).map (fun s => s.clusters.map (fun c => c.centroid_point))
      = some [[5 / 2, 7 / 2]] ∧
    (init_clusters (engine_of_input 1 [("A", [1, 2, 3]), ("B", [4, 5, 6])])).bind (passes 2)
      = none ∧
    (init_clusters (engine_of_input 1 [("A", [5])])).map (fun s => s.clusters.map
        (fun c => c.centroid_point)) = some [[5]] ∧
    (init_clusters (engine_of_input 1 [("A", [5])])).bind (passes 1) = none := by
  decide!

/-! ## The number of passes of `run` -/

theorem passes_succ_left (m : Nat) (s : KMeanClustering) :
    passes (m + 1) s = (pass s).bind fun r => passes m r.1 := by
  induction m with
  | zero =>
    simp only [passes, Option.some_bind]
    cases pass s with
    | none => rfl
    | some r => rfl
  | succ m ih =>
    have h : passes (m + 1 + 1) s = (passes (m + 1) s).bind fun t => (pass t).map Prod.fst := rfl
    rw [h, ih]
    cases pass s with
    | none => rfl
    | some r => rfl

/-- The state that `run` returns, given the state after `init_clusters` and the record of
the passes. -/
theorem run_eq_last (s : KMeanClustering) (max_iterations : Int) (s0 : KMeanClustering)
    (tr : List (KMeanClustering × Bool)) (h : run_passes s max_iterations = some (s0, tr)) :
    run s max_iterations = some ((tr.getLast?.map Prod.fst).getD s0) := by
  unfold run
  rw [h]
  simp only [Option.map_some']
  cases tr.getLast? with
  | none => rfl
  | some l => rfl

/-- On a consistent state with at least one point, the loop of `run` never leaves through
the `break`: it executes as many passes as the counter allows, and ends in the state
that this number of passes in a row gives. -/
theorem run_loop_exact (max_iterations : Int) (fuel : Nat) (iterations : Int)
    (s : KMeanClustering) (h : Consistent s) (hpt : 0 < s.points.length)
    (hfuel : fuel = (max_iterations + 1 - iterations).toNat) :
    ∃ tr, run_loop max_iterations fuel iterations s = some tr ∧ tr.length = fuel ∧
      (∀ r, r ∈ tr → r.2 = true) ∧
      passes fuel s = some ((tr.getLast?.map Prod.fst).getD s) := by
  induction fuel generalizing iterations s with
  | zero =>
    refine ⟨[], ?_, rfl, fun r hr => absurd hr (List.not_mem_nil r), rfl⟩
    unfold run_loop
    rw [if_neg (by omega)]
  | succ fuel ih =>
    have hpt' : 0 < (pass_fn s).points.length := by simpa [pass_fn] using hpt
    obtain ⟨rest, hrest, hlen, hflags, hlast⟩ :=
      ih (iterations + 1) (pass_fn s) (consistent_pass_fn s h) hpt' (by omega)
    have hp : pass s = some (pass_fn s, true) := by
      rw [pass_eq s h]
      simp [hpt]
    refine ⟨(pass_fn s, true) :: rest, ?_, by simp [hlen], ?_, ?_⟩
    · unfold run_loop
      rw [if_pos (by omega), hp]
      simp [hrest]
    · intro r hr
      rcases List.mem_cons.mp hr with rfl | hr'
      · rfl
      · exact hflags r hr'
    · rw [passes_succ_left, hp]
      simp only [Option.some_bind]
      rw [hlast, List.getLast?_cons]
      cases rest.getLast? with
      | none => rfl
      | some l => rfl

/-- C19: on two-coordinate input with `1 ≤ k ≤` number of points (so with at least one
point) and `max_iterations ≥ 0`, `run(max_iterations)` executes exactly
`max_iterations + 1` passes, every one of them with `change` set, whether or not the
assignments still change; the state it returns is the state after `init_clusters`
followed by `max_iterations + 1` passes. -/
theorem run_exact_pass_count (k : Int) (input : List (String × List ℚ)) (hk : 1 ≤ k)
    (hkn : k ≤ (input.length : Int)) (hdim : ∀ r, r ∈ input → r.2.length = 2)
    (max_iterations : Int) (hmax : 0 ≤ max_iterations) :
    ∃ (s0 : KMeanClustering) (tr : List (KMeanClustering × Bool)) (sf : KMeanClustering),
      run_passes (engine_of_input k input) max_iterations = some (s0, tr) ∧
      init_clusters (engine_of_input k input) = some s0 ∧
      (tr.length : Int) = max_iterations + 1 ∧ (∀ r, r ∈ tr → r.2 = true) ∧
      run (engine_of_input k input) max_iterations = some sf ∧
      passes (max_iterations + 1).toNat s0 = some sf := by
  obtain ⟨s0, h0, hC⟩ := init_consistent k input hk hkn hdim
  obtain ⟨_, _, hpts, _⟩ := init_shape k input s0 h0
  have hpt : 0 < s0.points.length := by
    rw [hpts, List.length_map]
    omega
  obtain ⟨tr, htr, hlen, hflags, hlast⟩ :=
    run_loop_exact max_iterations (max_iterations + 1).toNat 0 s0 hC hpt (by omega)
  have hrp : run_passes (engine_of_input k input) max_iterations = some (s0, tr) := by
    unfold run_passes
    rw [h0]
    simp [htr]
  refine ⟨s0, tr, _, hrp, h0, by omega, hflags, run_eq_last _ _ _ _ hrp, hlast⟩

/-- C19 at a concrete input: the points `A`, `B`, `C`, `D` with `k = 2` and
`max_iterations = 3`. -/
theorem run_exact_pass_count_witness :
    ∃ (s0 : KMeanClustering) (tr : List (KMeanClustering × Bool)) (sf : KMeanClustering),
      run_passes (engine_of_input 2
        [("A", [0, 0]), ("B", [1, 0]), ("C", [10, 10]), ("D", [11, 10])]) 3 = some (s0, tr) ∧
      init_clusters (engine_of_input 2
        [("A", [0, 0]), ("B", [1, 0]), ("C", [10, 10]), ("D", [11, 10])]) = some s0 ∧
      (tr.length : Int) = 3 + 1 ∧ (∀ r, r ∈ tr → r.2 = true) ∧
      run (engine_of_input 2
        [("A", [0, 0]), ("B", [1, 0]), ("C", [10, 10]), ("D", [11, 10])]) 3 = some sf ∧
      passes (3 + 1 : Int).toNat s0 = some sf :=
  run_exact_pass_count 2 [("A", [0, 0]), ("B", [1, 0]), ("C", [10, 10]), ("D", [11, 10])]
    (by decide) (by decide) (by decide) 3 (by decide)

/-! ## Index safety -/

/-- Any number of passes from a consistent state is defined and ends in a consistent
state. -/
theorem passes_defined (s0 : KMeanClustering) (hC : Consistent s0) (m : Nat) :
    ∃ s, passes m s0 = some s ∧ Consistent s := by
  induction m with
  | zero => exact ⟨s0, rfl, hC⟩
  | succ m ih =>
    obtain ⟨t, ht, hCt⟩ := ih
    refine ⟨pass_fn t, ?_, consistent_pass_fn t hCt⟩
    simp only [passes, ht, Option.some_bind, pass_eq t hCt, Option.map_some']

/-- C20: on a freshly constructed engine with `1 ≤ k ≤` number of points whose points all
have two coordinates, `run(max_iterations)` is defined for every `max_iterations`. In the
embedding every vector access outside the bounds (`points[i]` in `init_clusters`,
`clusters[i].centroid_point[j]` in `get_nearest_cluster`, `clusters[old id]` and
`clusters[new id]` in the assignment loop, `values[0]` and `values[1]` in the centroid
loop) makes the run undefined, and in `run_passes_checked` so does a division by zero:
the run with checked divisions is defined too and gives the same passes. -/
theorem run_index_safe (k : Int) (input : List (String × List ℚ)) (hk : 1 ≤ k)
    (hkn : k ≤ (input.length : Int)) (hdim : ∀ r, r ∈ input → r.2.length = 2)
    (max_iterations : Int) :
    ∃ (s0 : KMeanClustering) (tr : List (KMeanClustering × Bool)) (sf : KMeanClustering),
      run_passes_checked (engine_of_input k input) max_iterations = some (s0, tr) ∧
      run_passes (engine_of_input k input) max_iterations = some (s0, tr) ∧
      run (engine_of_input k input) max_iterations = some sf := by
  obtain ⟨s0, h0, hC⟩ := init_consistent k input hk hkn hdim
  obtain ⟨tr, htr⟩ := run_loop_defined max_iterations (max_iterations + 1).toNat 0 s0 hC
    (by omega)
  have hrp : run_passes (engine_of_input k input) max_iterations = some (s0, tr) := by
    unfold run_passes
    rw [h0]
    simp [htr]
  exact ⟨s0, tr, _, by rw [run_passes_checked_eq, hrp], hrp, run_eq_last _ _ _ _ hrp⟩

/-- C20 at a concrete input: the points `A`, `B`, `C`, `D` with `k = 2` and
`max_iterations = 10`. -/
theorem run_index_safe_witness :
    ∃ (s0 : KMeanClustering) (tr : List (KMeanClustering × Bool)) (sf : KMeanClustering),
      run_passes_checked (engine_of_input 2
        [("A", [0, 0]), ("B", [1, 0]), ("C", [10, 10]), ("D", [11, 10])]) 10 = some (s0, tr) ∧
      run_passes (engine_of_input 2
        [("A", [0, 0]), ("B", [1, 0]), ("C", [10, 10]), ("D", [11, 10])]) 10 = some (s0, tr) ∧
      run (engine_of_input 2
        [("A", [0, 0]), ("B", [1, 0]), ("C", [10, 10]), ("D", [11, 10])]) 10 = some sf :=
  run_index_safe 2 [("A", [0, 0]), ("B", [1, 0]), ("C", [10, 10]), ("D", [11, 10])]
    (by decide) (by decide) (by decide) 10

/-! ## Member lists as filters of the point list -/

/-- C18: on two-coordinate input with `1 ≤ k ≤` number of points, whatever the names of
the points are, `init_clusters` and every number of passes are defined, and in the state
`s` they reach the member list of every cluster `c` is the sublist of the points of the
engine whose `cluster_id` is `c`, in input order. In the pass that starts in `s`, when
the assignment loop comes to point `n` the engine is `assign_mid s n`, and if the point
has a cluster, the member list of that cluster starts with this very point:
`remove_point` removes the element at index 0. -/
theorem member_lists_are_filters (k : Int) (input : List (String × List ℚ)) (hk : 1 ≤ k)
    (hkn : k ≤ (input.length : Int)) (hdim : ∀ r, r ∈ input → r.2.length = 2) :
    ∃ s0 : KMeanClustering, init_clusters (engine_of_input k input) = some s0 ∧
    ∀ m : Nat, ∃ s : KMeanClustering, passes m s0 = some s ∧
      (∀ (c : Nat) (cl : Cluster), s.clusters[c]? = some cl →
        cl.points = s.points.filter (fun q => decide (q.cluster_id = (c : Int)))) ∧
      (∀ (n : Nat) (p : Point), s.points[n]? = some p →
        ∃ b : Bool, forLoop n assign_point (s, false) = some (assign_mid s n, b) ∧
          (p.cluster_id ≠ -1 → ∃ (cl : Cluster) (rest : List Point),
            idx? (assign_mid s n).clusters p.cluster_id = some cl ∧
            cl.points = p :: rest ∧ (cl.remove_point p).points = rest)) := by
  obtain ⟨s0, h0, hC0⟩ := init_consistent k input hk hkn hdim
  refine ⟨s0, h0, fun m => ?_⟩
  obtain ⟨s, hs, hC⟩ := passes_defined s0 hC0 m
  have hS := hC.2.1
  refine ⟨s, hs, ?_, ?_⟩
  · intro c cl hc
    have := hS.2.2 c (List.getElem?_eq_some.mp hc).1
    rw [hc] at this
    simpa using this
  · intro n p hp
    obtain ⟨hn, hpn⟩ := List.getElem?_eq_some.mp hp
    subst hpn
    have hnear : ∀ (m' : Nat) (q : Point), m' < n → s.points[m']? = some q →
        ∃ i : Nat, i < s.k.toNat ∧ get_nearest_cluster s q = some (i : Int) := by
      intro m' q _ hq
      have hqm : q ∈ s.points := List.mem_iff_getElem?.mpr ⟨m', hq⟩
      exact consistent_nearest s hC q (hC.2.2.1 q hqm)
    refine ⟨_, assign_loop_spec s hS n (Nat.le_of_lt hn) hnear, ?_⟩
    intro hne
    rcases hS.2.1 _ (List.getElem_mem hn) with h1 | ⟨h0', h1⟩
    · exact absurd h1 hne
    · have ho : s.points[n].cluster_id.toNat < s.clusters.length := by
        rw [hS.1]
        omega
      have hoc : s.points[n].cluster_id = ((s.points[n].cluster_id.toNat : Nat) : Int) := by
        omega
      refine ⟨Cluster.mk s.clusters[s.points[n].cluster_id.toNat].cluster_id
        s.clusters[s.points[n].cluster_id.toNat].centroid_point
        (members_mid s n s.points[n].cluster_id.toNat),
        members_removed s n s.points[n].cluster_id.toNat, ?_, ?_, ?_⟩
      · simp [idx?, h0', assign_mid, List.getElem?_mapIdx, List.getElem?_eq_getElem ho]
      · rw [members_mid_eq_cons s n _ hn, if_pos hoc]
        rfl
      · simp only [Cluster.remove_point]
        rw [members_mid_eq_cons s n _ hn, if_pos hoc]
        simp [erase_first_named]

/-- C18 at a concrete input in which two points share the name `A`. -/
theorem member_lists_are_filters_witness :
    passes 2 (KMeanClustering.mk 2 2
        [Point.mk "A" (-1) [0, 0], Point.mk "A" (-1) [10, 10], Point.mk "B" (-1) [1, 0]]
        [Cluster.mk 0 [0, 0] [], Cluster.mk 1 [10, 10] []])
      = some (KMeanClustering.mk 2 2
        [Point.mk "A" 0 [0, 0], Point.mk "A" 1 [10, 10], Point.mk "B" 0 [1, 0]]
        [Cluster.mk 0 [1 / 2, 0] [Point.mk "A" 0 [0, 0], Point.mk "B" 0 [1, 0]],
          Cluster.mk 1 [10, 10] [Point.mk "A" 1 [10, 10]]]) ∧
    ∃ s0 : KMeanClustering,
      init_clusters (engine_of_input 2 [("A", [0, 0]), ("A", [10, 10]), ("B", [1, 0])])
        = some s0 ∧
    ∀ m : Nat, ∃ s : KMeanClustering, passes m s0 = some s ∧
      (∀ (c : Nat) (cl : Cluster), s.clusters[c]? = some cl →
        cl.points = s.points.filter (fun q => decide (q.cluster_id = (c : Int)))) ∧
      (∀ (n : Nat) (p : Point), s.points[n]? = some p →
        ∃ b : Bool, forLoop n assign_point (s, false) = some (assign_mid s n, b) ∧
          (p.cluster_id ≠ -1 → ∃ (cl : Cluster) (rest : List Point),
            idx? (assign_mid s n).clusters p.cluster_id = some cl ∧
            cl.points = p :: rest ∧ (cl.remove_point p).points = rest)) :=
  ⟨by decide!,
   member_lists_are_filters 2 [("A", [0, 0]), ("A", [10, 10]), ("B", [1, 0])]
    (by decide) (by decide) (by decide)⟩

/-! ## Clusters without members -/

/-- Overwriting an entry by one with the same centroid keeps every centroid. -/
theorem set_keeps_centroids (l : List Cluster) (o : Nat) (c c' : Cluster)
    (hc : l[o]? = some c) (hcen : c'.centroid_point = c.centroid_point) (j : Nat) :
    ((l.set o c')[j]?).map (fun x => x.centroid_point)
      = (l[j]?).map (fun x => x.centroid_point) := by
  rw [List.getElem?_set]
  by_cases hoj : o = j
  · subst hoj
    have : o < l.length := (List.getElem?_eq_some.mp hc).1
    simp [this, hc, hcen]
  · simp [hoj]

theorem idx?_eq_some {α : Type} (v : List α) (i : Int) (a : α) (h : idx? v i = some a) :
    v[i.toNat]? = some a := by
  unfold idx? at h
  split at h
  · exact h
  · exact Option.noConfusion h

/-- An iteration of the assignment loop writes no centroid. -/
theorem assign_point_centroids (i : Nat) (st r : KMeanClustering × Bool)
    (h : assign_point i st = some r) (j : Nat) :
    (r.1.clusters[j]?).map (fun x => x.centroid_point)
      = (st.1.clusters[j]?).map (fun x => x.centroid_point) := by
  unfold assign_point at h
  cases hp : st.1.points[i]? with
  | none => rw [hp] at h; exact Option.noConfusion h
  | some p =>
    rw [hp] at h
    simp only [Option.some_bind] at h
    cases hg : get_nearest_cluster st.1 p with
    | none => rw [hg] at h; exact Option.noConfusion h
    | some v =>
      rw [hg] at h
      simp only [Option.some_bind] at h
      by_cases hv : v ≠ -1
      · rw [if_pos hv] at h
        simp only [Option.bind_eq_some] at h
        obtain ⟨clusters1, hc1, c, hc, h⟩ := h
        simp only [Option.some.injEq] at h
        rw [← h]
        have h1 : ∀ j' : Nat, (clusters1[j']?).map (fun x => x.centroid_point)
            = (st.1.clusters[j']?).map (fun x => x.centroid_point) := by
          intro j'
          by_cases hold : p.cluster_id ≠ -1
          · rw [if_pos hold] at hc1
            simp only [Option.bind_eq_some, Option.some.injEq] at hc1
            obtain ⟨c0, hc0, hc1⟩ := hc1
            rw [← hc1]
            exact set_keeps_centroids _ _ c0 (c0.remove_point p) (idx?_eq_some _ _ _ hc0) rfl j'
          · rw [if_neg hold] at hc1
            simp only [Option.some.injEq] at hc1
            rw [← hc1]
        show ((clusters1.set v.toNat _)[j]?).map _ = _
        rw [set_keeps_centroids _ _ c (c.add_point (Point.mk p.name v p.values))
          (idx?_eq_some _ _ _ hc) rfl j]
        exact h1 j
      · rw [if_neg hv] at h
        rw [← Option.some.inj h]

/-- The assignment loop writes no centroid. -/
theorem assign_loop_centroids (st0 st : KMeanClustering × Bool) (n : Nat)
    (h : forLoop n assign_point st0 = some st) (j : Nat) :
    (st.1.clusters[j]?).map (fun x => x.centroid_point)
      = (st0.1.clusters[j]?).map (fun x => x.centroid_point) := by
  induction n generalizing st with
  | zero =>
    simp only [forLoop, Option.some.injEq] at h
    rw [h]
  | succ n ih =>
    obtain ⟨x, hx, hstep⟩ := forLoop_succ_some n _ _ _ h
    rw [assign_point_centroids n x st hstep j, ih x hx]

/-- A defined centroid loop over `n` clusters has `n` clusters to read. -/
theorem recompute_loop_len (s r : KMeanClustering) (n : Nat)
    (h : forLoop n recompute_centroid s = some r) : n ≤ s.clusters.length := by
  by_contra hlt
  have hlt' : s.clusters.length < n := Nat.lt_of_not_le hlt
  obtain ⟨x, y, hx, hstep⟩ := forLoop_some_prefix _ _ _ _ h s.clusters.length hlt'
  have hdim := recompute_loop_defined s s.clusters.length (Nat.le_refl _) x hx
  rw [recompute_loop_spec s s.clusters.length (Nat.le_refl _) hdim] at hx
  simp only [Option.some.injEq] at hx
  subst hx
  unfold recompute_centroid at hstep
  rw [List.getElem?_eq_none (by simp)] at hstep
  exact Option.noConfusion hstep

/-- The centroid loop in closed form, whenever it is defined. -/
theorem recompute_loop_closed (s r : KMeanClustering) (n : Nat)
    (h : forLoop n recompute_centroid s = some r) :
    r = KMeanClustering.mk s.id s.k s.points
      (s.clusters.mapIdx fun c cl => if c < n then recentre cl else cl) := by
  have hn := recompute_loop_len s r n h
  have hdim := recompute_loop_defined s n hn r h
  rw [recompute_loop_spec s n hn hdim] at h
  exact (Option.some.inj h).symm

/-- C11: in every state in which a pass is defined, the pass with checked divisions is
defined as well and gives the same result (no division by zero is evaluated), and every
cluster whose member list is empty when the assignment loop has ended (the engine is
then `st.1`) has after the pass exactly the `centroid_point` it had when the pass
started, and still no members. -/
theorem empty_cluster_keeps_centroid (s : KMeanClustering) (r : KMeanClustering × Bool)
    (hr : pass s = some r) :
    pass_checked s = some r ∧
    ∃ st : KMeanClustering × Bool,
      forLoop s.points.length assign_point (s, false) = some st ∧
      forLoop s.k.toNat recompute_centroid st.1 = some r.1 ∧
      ∀ (i : Nat) (cl : Cluster), st.1.clusters[i]? = some cl → cl.points = [] →
        ∃ (cl0 cl1 : Cluster), s.clusters[i]? = some cl0 ∧ r.1.clusters[i]? = some cl1 ∧
          cl1.centroid_point = cl0.centroid_point ∧ cl1.points = [] := by
  refine ⟨by rw [pass_checked_eq, hr], ?_⟩
  unfold pass at hr
  cases hst : forLoop s.points.length assign_point (s, false) with
  | none => rw [hst] at hr; exact Option.noConfusion hr
  | some st =>
    rw [hst] at hr
    simp only [Option.some_bind] at hr
    cases hs2 : forLoop s.k.toNat recompute_centroid st.1 with
    | none => rw [hs2] at hr; exact Option.noConfusion hr
    | some s2 =>
      rw [hs2] at hr
      simp only [Option.some_bind, Option.some.injEq] at hr
      subst hr
      refine ⟨st, rfl, hs2, ?_⟩
      intro i cl hcl hempty
      have hcen := assign_loop_centroids (s, false) st _ hst i
      rw [hcl] at hcen
      cases hs : s.clusters[i]? with
      | none => rw [hs] at hcen; simp at hcen
      | some cl0 =>
        rw [hs] at hcen
        simp only [Option.map_some', Option.some.injEq] at hcen
        have hclosed := recompute_loop_closed st.1 s2 _ hs2
        have hre : recentre cl = cl := by
          simp [recentre, hempty]
        refine ⟨cl0, cl, rfl, ?_, hcen, hempty⟩
        show s2.clusters[i]? = some cl
        rw [hclosed]
        simp only [List.getElem?_mapIdx, hcl, Option.map_some', hre, ite_self]

/-- C11 at a concrete state: both points are nearest to cluster 0, cluster 1 stays
without members and keeps its centroid `(0, 0)`. -/
theorem empty_cluster_keeps_centroid_witness :
    pass_checked (KMeanClustering.mk 2 2
        [Point.mk "A" (-1) [0, 0], Point.mk "B" (-1) [0, 0]]
        [Cluster.mk 0 [0, 0] [], Cluster.mk 1 [0, 0] []])
      = some (KMeanClustering.mk 2 2 [Point.mk "A" 0 [0, 0], Point.mk "B" 0 [0, 0]]
        [Cluster.mk 0 [0, 0] [Point.mk "A" 0 [0, 0], Point.mk "B" 0 [0, 0]],
          Cluster.mk 1 [0, 0] []], true) ∧
    ∃ st : KMeanClustering × Bool,
      forLoop 2 assign_point (KMeanClustering.mk 2 2
        [Point.mk "A" (-1) [0, 0], Point.mk "B" (-1) [0, 0]]
        [Cluster.mk 0 [0, 0] [], Cluster.mk 1 [0, 0] []], false) = some st ∧
      forLoop 2 recompute_centroid st.1
        = some (KMeanClustering.mk 2 2 [Point.mk "A" 0 [0, 0], Point.mk "B" 0 [0, 0]]
          [Cluster.mk 0 [0, 0] [Point.mk "A" 0 [0, 0], Point.mk "B" 0 [0, 0]],
            Cluster.mk 1 [0, 0] []]) ∧
      ∀ (i : Nat) (cl : Cluster), st.1.clusters[i]? = some cl → cl.points = [] →
        ∃ (cl0 cl1 : Cluster),
          [Cluster.mk 0 [0, 0] [], Cluster.mk 1 [0, 0] []][i]? = some cl0 ∧
          [Cluster.mk 0 [0, 0] [Point.mk "A" 0 [0, 0], Point.mk "B" 0 [0, 0]],
            Cluster.mk 1 [0, 0] []][i]? = some cl1 ∧
          cl1.centroid_point = cl0.centroid_point ∧ cl1.points = [] :=
  empty_cluster_keeps_centroid
    (KMeanClustering.mk 2 2 [Point.mk "A" (-1) [0, 0], Point.mk "B" (-1) [0, 0]]
      [Cluster.mk 0 [0, 0] [], Cluster.mk 1 [0, 0] []])
    (KMeanClustering.mk 2 2 [Point.mk "A" 0 [0, 0], Point.mk "B" 0 [0, 0]]
      [Cluster.mk 0 [0, 0] [Point.mk "A" 0 [0, 0], Point.mk "B" 0 [0, 0]],
        Cluster.mk 1 [0, 0] []], true)
    (by decide!)

/-! ## The square root does not change the choice -/

/-- The scan commutes with a map of the distances that keeps the comparison on the
distances that occur. -/
theorem scan_map {δ δ' : Type} (lt : δ → δ → Bool) (lt' : δ' → δ' → Bool) (φ : δ → δ')
    (P : δ → Prop) (dist : Nat → Option δ) (hP : ∀ i d, dist i = some d → P d)
    (hlt : ∀ a b, P a → P b → lt' (φ a) (φ b) = lt a b) (n : Nat) :
    forLoop n (scan_step lt' (fun i => (dist i).map φ)) (none, -1)
        = (forLoop n (scan_step lt dist) (none, -1)).map (fun st => (st.1.map φ, st.2)) ∧
      ∀ st, forLoop n (scan_step lt dist) (none, -1) = some st → ∀ m, st.1 = some m → P m := by
  induction n with
  | zero =>
    refine ⟨rfl, ?_⟩
    intro st hst m hm
    simp only [forLoop, Option.some.injEq] at hst
    rw [← hst] at hm
    exact Option.noConfusion hm
  | succ n ih =>
    obtain ⟨ih1, ih2⟩ := ih
    rw [forLoop_succ, forLoop_succ, ih1]
    cases hx : forLoop n (scan_step lt dist) (none, -1) with
    | none =>
      refine ⟨rfl, ?_⟩
      intro st hst
      exact Option.noConfusion hst
    | some x =>
      simp only [Option.map_some', Option.some_bind]
      cases hd : dist n with
      | none =>
        refine ⟨by simp [scan_step, hd], ?_⟩
        intro st hst
        simp [scan_step, hd] at hst
      | some d =>
        have hPd := hP n d hd
        obtain ⟨x1, x2⟩ := x
        cases x1 with
        | none =>
          refine ⟨by simp [scan_step, hd], ?_⟩
          intro st hst m hm
          simp only [scan_step, hd, Option.some_bind, if_true, Option.some.injEq] at hst
          rw [← hst] at hm
          simp only [Option.some.injEq] at hm
          rw [← hm]
          exact hPd
        | some m0 =>
          have hPm := ih2 (some m0, x2) hx m0 rfl
          have hcmp := hlt d m0 hPd hPm
          cases hc : lt d m0 with
          | true =>
            refine ⟨by simp [scan_step, hd, hcmp, hc], ?_⟩
            intro st hst m hm
            simp only [scan_step, hd, Option.some_bind, hc, if_true, Option.some.injEq] at hst
            rw [← hst] at hm
            simp only [Option.some.injEq] at hm
            rw [← hm]
            exact hPd
          | false =>
            refine ⟨by simp [scan_step, hd, hcmp, hc], ?_⟩
            intro st hst m hm
            simp only [scan_step, hd, Option.some_bind, hc, Bool.false_eq_true, if_false,
              Option.some.injEq] at hst
            rw [← hst] at hm
            simp only [Option.some.injEq] at hm
            rw [← hm]
            exact hPm

theorem nearest_by_map {δ δ' : Type} (lt : δ → δ → Bool) (lt' : δ' → δ' → Bool) (φ : δ → δ')
    (P : δ → Prop) (dist : Nat → Option δ) (hP : ∀ i d, dist i = some d → P d)
    (hlt : ∀ a b, P a → P b → lt' (φ a) (φ b) = lt a b) (k : Nat) :
    nearest_by lt' (fun i => (dist i).map φ) k = nearest_by lt dist k := by
  unfold nearest_by
  rw [(scan_map lt lt' φ P dist hP hlt k).1]
  cases forLoop k (scan_step lt dist) (none, -1) with
  | none => rfl
  | some st => rfl

/-- A sum of squared coordinate differences over the reals is nonnegative. -/
theorem sq_sum_of_nonneg (values : List ℝ) (centroids : List (List ℝ)) (i : Nat) (d : ℝ)
    (h : sq_sum_of values centroids i = some d) : 0 ≤ d := by
  unfold sq_sum_of at h
  generalize values.length = n at h
  induction n generalizing d with
  | zero =>
    simp only [forLoop, Option.some.injEq] at h
    rw [← h]
  | succ n ih =>
    obtain ⟨x, hx, hstep⟩ := forLoop_succ_some n _ _ _ h
    have hx0 := ih x hx
    simp only [Option.bind_eq_some, Option.some.injEq] at hstep
    obtain ⟨pj, _, c, _, cj, _, hd⟩ := hstep
    rw [← hd]
    exact add_nonneg hx0 (mul_self_nonneg _)

/-- The inner loop of `get_nearest_cluster` is `sq_sum_of` on the coordinates of the point
and the centroids of the engine. -/
theorem sq_sum_eq_sq_sum_of (s : KMeanClustering) (p : Point) (i : Nat) :
    sq_sum s p i = sq_sum_of p.values (s.clusters.map fun c => c.centroid_point) i := by
  unfold sq_sum sq_sum_of
  apply forLoop_congr
  intro j _ x
  rw [List.getElem?_map]
  cases s.clusters[i]? with
  | none => rfl
  | some c => rfl

/-- The scan of `get_nearest_cluster` with `min_dist` as a `Dist` is the scan over the
radicands. -/
theorem nearest_loop_eq_scan (s : KMeanClustering) (p : Point) (n : Nat) :
    forLoop n (nearest_step s p) (Dist.max, -1)
      = (forLoop n (scan_step (fun a b : ℚ => decide (a < b)) (sq_sum s p)) (none, -1)).map
          (fun st => (match st.1 with
            | none => Dist.max
            | some m => Dist.sqrt m, st.2)) := by
  induction n with
  | zero => rfl
  | succ n ih =>
    rw [forLoop_succ, forLoop_succ, ih]
    cases forLoop n (scan_step (fun a b : ℚ => decide (a < b)) (sq_sum s p)) (none, -1) with
    | none => rfl
    | some x =>
      obtain ⟨x1, x2⟩ := x
      simp only [Option.map_some', Option.some_bind, nearest_step, scan_step]
      cases sq_sum s p n with
      | none => rfl
      | some d =>
        cases x1 with
        | none => simp [Dist.lt]
        | some m =>
          by_cases hlt : d < m
          · simp [Dist.lt, hlt]
          · simp [Dist.lt, hlt]

/-- The embedding of `get_nearest_cluster` is the variant that compares the squared sums. -/
theorem get_nearest_cluster_eq_squared (s : KMeanClustering) (p : Point) :
    get_nearest_cluster s p = get_nearest_cluster_squared s p := by
  unfold get_nearest_cluster get_nearest_cluster_squared nearest_by
  rw [nearest_loop_eq_scan]
  have : sq_sum s p = sq_sum_of p.values (s.clusters.map fun c => c.centroid_point) := by
    funext i
    exact sq_sum_eq_sq_sum_of s p i
  rw [this]
  cases forLoop s.k.toNat (scan_step (fun a b : ℚ => decide (a < b))
      (sq_sum_of p.values (s.clusters.map fun c => c.centroid_point))) (none, -1) with
  | none => rfl
  | some st => rfl

/-- C17: over the reals, for every point, every list of centroids and every `k`, the scan
of `get_nearest_cluster` as written, which compares `sqrt` of the sums of the squared
coordinate differences, returns what the variant returns that compares the sums
themselves (both are undefined for the same inputs); and the embedding
`get_nearest_cluster`, which keeps `sqrt(sum)` by its radicand, is this variant over the
rationals. -/
theorem sqrt_is_irrelevant :
    (∀ (values : List ℝ) (centroids : List (List ℝ)) (k : Nat),
      nearest_by (fun a b : ℝ => decide (a < b))
          (fun i => (sq_sum_of values centroids i).map Real.sqrt) k
        = nearest_by (fun a b : ℝ => decide (a < b)) (sq_sum_of values centroids) k) ∧
    (∀ (s : KMeanClustering) (p : Point),
      get_nearest_cluster s p = get_nearest_cluster_squared s p) := by
  refine ⟨?_, get_nearest_cluster_eq_squared⟩
  intro values centroids k
  apply nearest_by_map (fun a b : ℝ => decide (a < b)) (fun a b : ℝ => decide (a < b))
    Real.sqrt (fun d => 0 ≤ d) (sq_sum_of values centroids)
  · intro i d hd
    exact sq_sum_of_nonneg values centroids i d hd
  · intro a b ha _
    simp only [Real.sqrt_lt_sqrt_iff ha]

/-! ## As many clusters as points -/

theorem sq_dist_cons (x y : ℚ) (a b : List ℚ) :
    sq_dist (x :: a) (y :: b) = (x - y) * (x - y) + sq_dist a b := by
  simp [sq_dist]

theorem sq_dist_self (a : List ℚ) : sq_dist a a = 0 := by
  induction a with
  | nil => rfl
  | cons x a ih => rw [sq_dist_cons, ih]; ring

/-- Two coordinate vectors of the same length at squared distance 0 are equal. -/
theorem sq_dist_eq_zero (a b : List ℚ) (hlen : a.length = b.length) (h : sq_dist a b = 0) :
    a = b := by
  induction a generalizing b with
  | nil =>
    cases b with
    | nil => rfl
    | cons y b => simp at hlen
  | cons x a ih =>
    cases b with
    | nil => simp at hlen
    | cons y b =>
      rw [sq_dist_cons] at h
      have h1 : 0 ≤ (x - y) * (x - y) := mul_self_nonneg _
      have h2 : 0 ≤ sq_dist a b := sq_dist_nonneg a b
      have h3 : (x - y) * (x - y) = 0 := by linarith
      have h4 : sq_dist a b = 0 := by linarith
      have hxy : x = y := by
        have := mul_self_eq_zero.mp h3
        linarith
      rw [hxy, ih b (by simpa using hlen) h4]

/-- In a list of points whose `j`-th element has `cluster_id` `off + j`, the points with
`cluster_id` `off + i` are the `i`-th element alone. -/
theorem filter_by_index (l : List Point) (off : Nat)
    (h : ∀ (j : Nat) (q : Point), l[j]? = some q → q.cluster_id = ((off + j : Nat) : Int))
    (i : Nat) (p : Point) (hp : l[i]? = some p) :
    l.filter (fun q => decide (q.cluster_id = ((off + i : Nat) : Int))) = [p] := by
  induction l generalizing off i with
  | nil => simp at hp
  | cons a l ih =>
    have ha := h 0 a (by simp)
    have htail : ∀ (j : Nat) (q : Point), l[j]? = some q →
        q.cluster_id = ((off + 1 + j : Nat) : Int) := by
      intro j q hq
      have := h (j + 1) q (by simpa using hq)
      rw [this]
      congr 1
      omega
    cases i with
    | zero =>
      simp only [List.getElem?_cons_zero, Option.some.injEq] at hp
      subst hp
      rw [List.filter_cons, if_pos (by simpa using ha)]
      congr 1
      rw [List.filter_eq_nil_iff]
      intro q hq
      obtain ⟨j, hj⟩ := List.mem_iff_getElem?.mp hq
      have := htail j q hj
      simp only [decide_eq_true_eq, this]
      omega
    | succ i =>
      simp only [List.getElem?_cons_succ] at hp
      rw [List.filter_cons, if_neg (by simp only [decide_eq_true_eq, ha]; omega)]
      have := ih (off + 1) htail i hp
      have he : ((off + (i + 1) : Nat) : Int) = ((off + 1 + i : Nat) : Int) := by
        congr 1
        omega
      rw [he]
      exact this

/-- The centroid update of a cluster whose only member has the centroid as its two
coordinates changes nothing. -/
theorem recentre_singleton (id : Int) (q : Point) (hq : q.values.length = 2) :
    recentre (Cluster.mk id q.values [q]) = Cluster.mk id q.values [q] := by
  obtain ⟨name, cid, values⟩ := q
  match values, hq with
  | [x, y], _ => simp [recentre, coord]

/-- When the centroids are pairwise distinct two-coordinate vectors, a point that sits on
centroid `i` has cluster `i` as its nearest cluster. -/
theorem nearest_of_own_centroid (t : KMeanClustering) (hk : 1 ≤ t.k)
    (hlen : t.clusters.length = t.k.toNat)
    (hnd : (t.clusters.map fun c => c.centroid_point).Nodup)
    (hdim : ∀ c, c ∈ t.clusters → c.centroid_point.length = 2)
    (i : Nat) (ci : Cluster) (hi : t.clusters[i]? = some ci) (p : Point)
    (hp : p.values = ci.centroid_point) :
    get_nearest_cluster t p = some (i : Int) := by
  have hpl : p.values.length = 2 := by
    rw [hp]
    exact hdim ci (List.mem_iff_getElem?.mpr ⟨i, hi⟩)
  obtain ⟨j, cj, hres, hj, hcj, hmin, _⟩ := get_nearest_cluster_spec t p hk
    (le_of_eq hlen.symm) (fun c hc => by rw [hpl, hdim c hc])
  have hilt : i < t.clusters.length := (List.getElem?_eq_some.mp hi).1
  have h0 := hmin i ci (by rw [← hlen]; exact hilt) hi
  rw [hp, sq_dist_self] at h0
  have hz : sq_dist ci.centroid_point cj.centroid_point = 0 :=
    le_antisymm h0 (sq_dist_nonneg _ _)
  have hcjm : cj ∈ t.clusters := List.mem_iff_getElem?.mpr ⟨j, hcj⟩
  have heq : ci.centroid_point = cj.centroid_point :=
    sq_dist_eq_zero _ _ (by rw [hdim ci (List.mem_iff_getElem?.mpr ⟨i, hi⟩), hdim cj hcjm]) hz
  have hjlt : j < t.clusters.length := (List.getElem?_eq_some.mp hcj).1
  have hij : i = j := by
    have hi' : i < (t.clusters.map fun c => c.centroid_point).length := by simpa using hilt
    have hj' : j < (t.clusters.map fun c => c.centroid_point).length := by simpa using hjlt
    apply (@List.Nodup.getElem_inj_iff _ _ hnd i hi' j hj').mp
    simp only [List.getElem_map]
    have e1 : t.clusters[i] = ci := by
      have := List.getElem?_eq_getElem hilt
      rw [hi] at this
      exact (Option.some.inj this).symm
    have e2 : t.clusters[j] = cj := by
      have := List.getElem?_eq_getElem hjlt
      rw [hcj] at this
      exact (Option.some.inj this).symm
    rw [e1, e2, heq]
  rw [hres, hij]

/-- With as many clusters as points and pairwise distinct two-coordinate vectors, the
first pass puts point `i` alone into cluster `i`, keeps every centroid, and the state it
leaves is not changed by a further pass. -/
theorem boundary_first_pass (input : List (String × List ℚ)) (hn : 1 ≤ input.length)
    (hdim : ∀ r, r ∈ input → r.2.length = 2) (hnd : (input.map fun r => r.2).Nodup)
    (s0 : KMeanClustering)
    (h0 : init_clusters (engine_of_input (input.length : Int) input) = some s0) :
    Consistent s0 ∧
    (pass_fn s0).points = input.mapIdx (fun i r => Point.mk r.1 (i : Int) r.2) ∧
    (pass_fn s0).clusters
      = input.mapIdx (fun i r => Cluster.mk (i : Int) r.2 [Point.mk r.1 (i : Int) r.2]) ∧
    pass_fn (pass_fn s0) = pass_fn s0 := by
  obtain ⟨s0', h0', hC0⟩ := init_consistent (input.length : Int) input (by omega)
    (le_refl _) hdim
  have hs : s0' = s0 := by
    rw [h0] at h0'
    exact (Option.some.inj h0').symm
  subst hs
  obtain ⟨hS0, hk0, hpts0, hcl0⟩ := init_shape _ input s0' h0
  have hlen0 : s0'.clusters.length = input.length := by
    rw [hS0.1, hk0]
    simp
  have hcls0 : s0'.clusters = input.mapIdx (fun i r => Cluster.mk (i : Int) r.2 []) := by
    apply List.ext_getElem?
    intro i
    rw [List.getElem?_mapIdx]
    by_cases hi : i < input.length
    · obtain ⟨r, hr1, hr2⟩ := hcl0 i (by simpa using hi)
      rw [hr2, hr1]
      rfl
    · rw [List.getElem?_eq_none (by omega), List.getElem?_eq_none (by omega)]
      rfl
  have hcen0 : (s0'.clusters.map fun c => c.centroid_point) = input.map fun r => r.2 := by
    rw [hcls0]
    apply List.ext_getElem?
    intro i
    simp only [List.getElem?_map, List.getElem?_mapIdx, Option.map_map]
    rfl
  have hdimc0 : ∀ c, c ∈ s0'.clusters → c.centroid_point.length = 2 := by
    intro c hc
    rw [hcls0] at hc
    obtain ⟨i, r, hr, rfl⟩ := mem_mapIdx _ _ _ hc
    exact hdim r (List.mem_iff_getElem?.mpr ⟨i, hr⟩)
  have hpts1 : (pass_fn s0').points = input.mapIdx (fun i r => Point.mk r.1 (i : Int) r.2) := by
    simp only [pass_fn, hpts0, List.map_map]
    apply List.ext_getElem?
    intro i
    rw [List.getElem?_map, List.getElem?_mapIdx]
    cases hr : input[i]? with
    | none => rfl
    | some r =>
      simp only [Option.map_some', Option.some.injEq, Function.comp_apply]
      have hci : s0'.clusters[i]? = some (Cluster.mk (i : Int) r.2 []) := by
        rw [hcls0, List.getElem?_mapIdx, hr]
        rfl
      have := nearest_of_own_centroid s0' hC0.1 hS0.1 (by rw [hcen0]; exact hnd) hdimc0 i _ hci
        (Point.mk_new r.1 r.2) rfl
      unfold reassign
      rw [this]
      rfl
  have hcls1 : (pass_fn s0').clusters
      = input.mapIdx (fun i r => Cluster.mk (i : Int) r.2 [Point.mk r.1 (i : Int) r.2]) := by
    have hp := hpts1
    simp only [pass_fn] at hp ⊢
    rw [hp, hcls0, List.mapIdx_mapIdx]
    apply mapIdx_congr_getElem
    intro c r hr
    simp only [Function.comp_apply]
    have hf := filter_by_index (input.mapIdx (fun i r => Point.mk r.1 (i : Int) r.2)) 0
      (by
        intro j q hq
        rw [List.getElem?_mapIdx] at hq
        cases hj : input[j]? with
        | none => rw [hj] at hq; exact Option.noConfusion hq
        | some r' =>
          rw [hj] at hq
          simp only [Option.map_some', Option.some.injEq] at hq
          rw [← hq]
          simp)
      c (Point.mk r.1 (c : Int) r.2) (by rw [List.getElem?_mapIdx, hr]; rfl)
    simp only [Nat.zero_add] at hf
    rw [hf]
    exact recentre_singleton (c : Int) (Point.mk r.1 (c : Int) r.2)
      (hdim r (List.mem_iff_getElem?.mpr ⟨c, hr⟩))
  refine ⟨hC0, hpts1, hcls1, ?_⟩
  have hC1 := consistent_pass_fn s0' hC0
  apply pass_fn_fixed _ hC1.2.1
  · intro cl hcl
    obtain ⟨c, a, _, rfl⟩ := mem_mapIdx _ _ _ hcl
    exact recentre_idem _
  · intro p hp
    rw [hpts1] at hp
    obtain ⟨i, r, hr, rfl⟩ := mem_mapIdx _ _ _ hp
    have hci : (pass_fn s0').clusters[i]?
        = some (Cluster.mk (i : Int) r.2 [Point.mk r.1 (i : Int) r.2]) := by
      rw [hcls1, List.getElem?_mapIdx, hr]
      rfl
    have hcen1 : ((pass_fn s0').clusters.map fun c => c.centroid_point)
        = input.map fun r => r.2 := by
      rw [hcls1]
      apply List.ext_getElem?
      intro j
      simp only [List.getElem?_map, List.getElem?_mapIdx, Option.map_map]
      rfl
    have := nearest_of_own_centroid (pass_fn s0') hC1.1 hC1.2.1.1
      (by rw [hcen1]; exact hnd)
      (by
        intro c hc
        rw [hcls1] at hc
        obtain ⟨j, r', hr', rfl⟩ := mem_mapIdx _ _ _ hc
        exact hdim r' (List.mem_iff_getElem?.mpr ⟨j, hr'⟩))
      i _ hci (Point.mk r.1 (i : Int) r.2) rfl
    unfold reassign
    rw [this]
    rfl

/-- C12 as stated fails: the points `A = (0, 0)` and `B = (0, 0)` have unique names, and
with `k = 2` the first pass puts both into cluster 0 and leaves cluster 1 without
members. -/
theorem boundary_counterexample :
    ((init_clusters (engine_of_input 2 [("A", [0, 0]), ("B", [0, 0])])).bind
        (passes 1)).map (fun s => s.clusters.map (fun c => c.points))
      = some [[Point.mk "A" 0 [0, 0], Point.mk "B" 0 [0, 0]], []] := by
  decide!

/-- C12, amended: for `n ≥ 1` two-coordinate points with unique names and pairwise
distinct coordinate vectors and `k = n`, after `init_clusters` and the first pass the
member list of cluster `i` is the `i`-th input point alone (with `cluster_id = i`), for
every `i` in `[0, n)`, and every later pass changes nothing: the state after `m + 1`
passes is the state after the first pass. -/
theorem boundary_k_eq_n (input : List (String × List ℚ)) (hn : 1 ≤ input.length)
    (hdim : ∀ r, r ∈ input → r.2.length = 2) (_huniq : (input.map fun r => r.1).Nodup)
    (hnd : (input.map fun r => r.2).Nodup) :
    ∃ (s0 s1 : KMeanClustering),
      init_clusters (engine_of_input (input.length : Int) input) = some s0 ∧
      passes 1 s0 = some s1 ∧
      (∀ (i : Nat) (r : String × List ℚ), input[i]? = some r →
        ∃ cl : Cluster, s1.clusters[i]? = some cl ∧
          cl.points = [Point.mk r.1 (i : Int) r.2]) ∧
      ∀ m : Nat, passes (m + 1) s0 = some s1 := by
  obtain ⟨s0, h0, _⟩ := init_consistent (input.length : Int) input (by omega)
    (le_refl _) hdim
  obtain ⟨hC0, _, hcls1, hfix⟩ := boundary_first_pass input hn hdim hnd s0 h0
  have hC1 := consistent_pass_fn s0 hC0
  have hall : ∀ m : Nat, passes (m + 1) s0 = some (pass_fn s0) := by
    intro m
    induction m with
    | zero => simp only [passes, Option.some_bind, pass_eq s0 hC0, Option.map_some']
    | succ m ih =>
      have h : passes (m + 1 + 1) s0
          = (passes (m + 1) s0).bind fun t => (pass t).map Prod.fst := rfl
      rw [h, ih]
      simp only [Option.some_bind, pass_eq _ hC1, Option.map_some', hfix]
  refine ⟨s0, pass_fn s0, h0, hall 0, ?_, hall⟩
  intro i r hr
  refine ⟨Cluster.mk (i : Int) r.2 [Point.mk r.1 (i : Int) r.2], ?_, rfl⟩
  rw [hcls1, List.getElem?_mapIdx, hr]
  rfl

/-- C12, amended, at a concrete input: three points with distinct coordinates, `k = 3`. -/
theorem boundary_k_eq_n_witness :
    ∃ (s0 s1 : KMeanClustering),
      init_clusters (engine_of_input 3 [("A", [0, 0]), ("B", [1, 0]), ("C", [5, 5])])
        = some s0 ∧
      passes 1 s0 = some s1 ∧
      (∀ (i : Nat) (r : String × List ℚ),
        [("A", [0, 0]), ("B", [1, 0]), ("C", [(5 : ℚ), 5])][i]? = some r →
        ∃ cl : Cluster, s1.clusters[i]? = some cl ∧
          cl.points = [Point.mk r.1 (i : Int) r.2]) ∧
      ∀ m : Nat, passes (m + 1) s0 = some s1 :=
  boundary_k_eq_n [("A", [0, 0]), ("B", [1, 0]), ("C", [5, 5])]
    (by decide) (by decide) (by decide!) (by decide!)

/-! ## The objective does not increase -/

/-- Shifting the centre of a sum of squares. -/
theorem sum_sq_shift (xs : List ℚ) (m c : ℚ) :
    (xs.map fun x => (x - c) * (x - c)).sum
      = (xs.map fun x => (x - m) * (x - m)).sum + 2 * (m - c) * (xs.sum - xs.length * m)
        + xs.length * ((m - c) * (m - c)) := by
  induction xs with
  | nil => simp
  | cons x xs ih =>
    simp only [List.map_cons, List.sum_cons, List.length_cons, Nat.cast_succ, ih]
    ring

/-- The mean minimises the sum of the squared differences. -/
theorem mean_minimises_1d (xs : List ℚ) (hne : xs ≠ []) (c : ℚ) :
    (xs.map fun x => (x - xs.sum / xs.length) * (x - xs.sum / xs.length)).sum
      ≤ (xs.map fun x => (x - c) * (x - c)).sum := by
  have hn : (xs.length : ℚ) ≠ 0 := by
    have : xs.length ≠ 0 := fun h => hne (List.length_eq_zero.mp h)
    exact_mod_cast this
  rw [sum_sq_shift xs (xs.sum / xs.length) c]
  have h0 : xs.sum - xs.length * (xs.sum / xs.length) = 0 := by
    field_simp
  rw [h0]
  have h1 : 0 ≤ (xs.length : ℚ) * ((xs.sum / xs.length - c) * (xs.sum / xs.length - c)) :=
    mul_nonneg (Nat.cast_nonneg _) (mul_self_nonneg _)
  linarith

/-- The squared distance of a two-coordinate point to a centroid with at least two
coordinates. -/
theorem sq_dist_two (y : Point) (hy : y.values.length = 2) (c0 c1 : ℚ) (rest : List ℚ) :
    sq_dist y.values (c0 :: c1 :: rest)
      = (coord 0 y - c0) * (coord 0 y - c0) + (coord 1 y - c1) * (coord 1 y - c1) := by
  obtain ⟨name, cid, values⟩ := y
  match values, hy with
  | [a, b], _ => simp [sq_dist, coord]

/-- Among all centroids with at least two coordinates, the mean of the members has the
least sum of squared distances to the members. -/
theorem mean_minimises (F : List Point) (hdim : ∀ y, y ∈ F → y.values.length = 2)
    (hne : F ≠ []) (cen : List ℚ) (hcen : 2 ≤ cen.length) :
    (F.map fun y => sq_dist y.values
        [(F.map (coord 0)).sum / (F.length : ℚ), (F.map (coord 1)).sum / (F.length : ℚ)]).sum
      ≤ (F.map fun y => sq_dist y.values cen).sum := by
  match cen, hcen with
  | c0 :: c1 :: rest, _ =>
    have e1 : ∀ (d0 d1 : ℚ) (tl : List ℚ), (F.map fun y => sq_dist y.values (d0 :: d1 :: tl))
        = F.map fun y => (coord 0 y - d0) * (coord 0 y - d0)
            + (coord 1 y - d1) * (coord 1 y - d1) := by
      intro d0 d1 tl
      apply List.map_congr_left
      intro y hy
      exact sq_dist_two y (hdim y hy) d0 d1 tl
    have e2 : ∀ (j : Nat) (d : ℚ), (F.map fun y => (coord j y - d) * (coord j y - d))
        = (F.map (coord j)).map fun x => (x - d) * (x - d) := by
      intro j d
      rw [List.map_map]
      rfl
    rw [e1, e1, List.sum_map_add, List.sum_map_add, e2, e2, e2, e2]
    have hne0 : F.map (coord 0) ≠ [] := by simpa using hne
    have hne1 : F.map (coord 1) ≠ [] := by simpa using hne
    have h0 := mean_minimises_1d (F.map (coord 0)) hne0 c0
    have h1 := mean_minimises_1d (F.map (coord 1)) hne1 c1
    simp only [List.length_map] at h0 h1
    exact add_le_add h0 h1

/-- A sum over the points, split by cluster. -/
theorem sum_by_cluster (L : List Point) (g : Point → ℚ) (K : Nat) :
    ((List.range K).map fun (c : Nat) =>
        ((L.filter fun q => decide (q.cluster_id = (c : Int))).map g).sum).sum
      = ((L.filter fun q => decide (0 ≤ q.cluster_id ∧ q.cluster_id < (K : Int))).map g).sum := by
  induction K with
  | zero =>
    have : (L.filter fun q => decide (0 ≤ q.cluster_id ∧ q.cluster_id < ((0 : Nat) : Int))) = [] := by
      rw [List.filter_eq_nil_iff]
      intro a _
      simp only [decide_eq_true_eq]
      omega
    rw [this]
    rfl
  | succ K ih =>
    rw [List.sum_range_succ, ih]
    clear ih
    induction L with
    | nil => simp
    | cons a L ihL =>
      simp only [List.filter_cons]
      by_cases h1 : a.cluster_id = (K : Int)
      · have h2 : ¬ (0 ≤ a.cluster_id ∧ a.cluster_id < (K : Int)) := by omega
        have h3 : 0 ≤ a.cluster_id ∧ a.cluster_id < ((K + 1 : Nat) : Int) := by omega
        rw [if_neg (by simpa using h2), if_pos (by simpa using h1), if_pos (by simpa using h3)]
        simp only [List.map_cons, List.sum_cons]
        linarith
      · by_cases h2 : 0 ≤ a.cluster_id ∧ a.cluster_id < (K : Int)
        · have h3 : 0 ≤ a.cluster_id ∧ a.cluster_id < ((K + 1 : Nat) : Int) := by omega
          rw [if_pos (by simpa using h2), if_neg (by simpa using h1),
            if_pos (by simpa using h3)]
          simp only [List.map_cons, List.sum_cons]
          linarith
        · have h3 : ¬ (0 ≤ a.cluster_id ∧ a.cluster_id < ((K + 1 : Nat) : Int)) := by omega
          rw [if_neg (by simpa using h2), if_neg (by simpa using h1),
            if_neg (by simpa using h3)]
          exact ihL

/-- A sum over points that all have a cluster, split by cluster. -/
theorem sum_by_cluster_all (L : List Point) (g : Point → ℚ) (K : Nat)
    (hids : ∀ x, x ∈ L → 0 ≤ x.cluster_id ∧ x.cluster_id < (K : Int)) :
    (L.map g).sum = ((List.range K).map fun (c : Nat) =>
        ((L.filter fun q => decide (q.cluster_id = (c : Int))).map g).sum).sum := by
  rw [sum_by_cluster]
  have : (L.filter fun q => decide (0 ≤ q.cluster_id ∧ q.cluster_id < (K : Int))) = L := by
    rw [List.filter_eq_self]
    intro a ha
    simpa using hids a ha
  rw [this]

/-- The assignment step does not raise the cost of a point that had a cluster. -/
theorem assign_lowers_cost (t : KMeanClustering) (hC : Consistent t) (x : Point)
    (hx : x ∈ t.points) (hid : 0 ≤ x.cluster_id) :
    cost t.clusters (reassign t x) ≤ cost t.clusters x := by
  obtain ⟨hk, hS, hdimp, hcen⟩ := hC
  obtain ⟨i, ci, hres, hi, hci, hmin, _⟩ := get_nearest_cluster_spec t x hk
    (le_of_eq hS.1.symm) (fun c hc => by rw [hdimp x hx]; exact hcen c hc)
  rcases hS.2.1 x hx with h1 | ⟨_, h1⟩
  · omega
  · have hj : x.cluster_id.toNat < t.k.toNat := by omega
    have hjl : x.cluster_id.toNat < t.clusters.length := by rw [hS.1]; exact hj
    have hcj : t.clusters[x.cluster_id.toNat]? = some t.clusters[x.cluster_id.toNat] :=
      List.getElem?_eq_getElem hjl
    have e1 : cost t.clusters (reassign t x) = sq_dist x.values ci.centroid_point := by
      simp [cost, reassign, hres, idx?, hci]
    have e2 : cost t.clusters x
        = sq_dist x.values t.clusters[x.cluster_id.toNat].centroid_point := by
      simp [cost, idx?, hid, hcj]
    rw [e1, e2]
    exact hmin _ _ hj hcj

/-- The centroid update does not raise the summed cost of the members of a cluster. -/
theorem recentre_lowers_cost (F : List Point) (hdim : ∀ y, y ∈ F → y.values.length = 2)
    (id : Int) (cen : List ℚ) (hcen : 2 ≤ cen.length) :
    (F.map fun y => sq_dist y.values (recentre (Cluster.mk id cen F)).centroid_point).sum
      ≤ (F.map fun y => sq_dist y.values cen).sum := by
  by_cases hne : F = []
  · subst hne
    simp
  · have h0 : ¬ F.length = 0 := fun h => hne (List.length_eq_zero.mp h)
    have : (recentre (Cluster.mk id cen F)).centroid_point
        = [(F.map (coord 0)).sum / (F.length : ℚ), (F.map (coord 1)).sum / (F.length : ℚ)] := by
      simp [recentre, h0]
    rw [this]
    exact mean_minimises F hdim hne cen hcen

/-- One pass from a consistent state in which every point has a cluster does not raise
the objective. -/
theorem pass_fn_objective_le (t : KMeanClustering) (hC : Consistent t)
    (hids : ∀ x, x ∈ t.points → 0 ≤ x.cluster_id) :
    objective (pass_fn t) ≤ objective t := by
  have hC' := consistent_pass_fn t hC
  have hlen : t.clusters.length = t.k.toNat := hC.2.1.1
  have hids' : ∀ y, y ∈ (pass_fn t).points →
      0 ≤ y.cluster_id ∧ y.cluster_id < ((t.k.toNat : Nat) : Int) := by
    intro y hy
    simp only [pass_fn, List.mem_map] at hy
    obtain ⟨x, hx, rfl⟩ := hy
    obtain ⟨i, hi, hin⟩ := consistent_nearest t hC x (hC.2.2.1 x hx)
    simp only [reassign, hin, Option.getD_some]
    omega
  have hmid : ((pass_fn t).points.map (cost t.clusters)).sum ≤ objective t := by
    simp only [pass_fn, List.map_map, objective]
    apply List.sum_le_sum
    intro x hx
    exact assign_lowers_cost t hC x hx (hids x hx)
  refine le_trans ?_ hmid
  unfold objective
  rw [sum_by_cluster_all _ (cost (pass_fn t).clusters) t.k.toNat hids',
    sum_by_cluster_all _ (cost t.clusters) t.k.toNat hids']
  apply List.sum_le_sum
  intro c hc
  have hck : c < t.k.toNat := List.mem_range.mp hc
  have hcl : c < t.clusters.length := by rw [hlen]; exact hck
  have ha : t.clusters[c]? = some t.clusters[c] := List.getElem?_eq_getElem hcl
  have ha' : (pass_fn t).clusters[c]? = some (recentre (Cluster.mk t.clusters[c].cluster_id
      t.clusters[c].centroid_point
      ((pass_fn t).points.filter fun q => decide (q.cluster_id = (c : Int))))) := by
    simp only [pass_fn, List.getElem?_mapIdx, ha, Option.map_some']
  have e1 : ((pass_fn t).points.filter fun q => decide (q.cluster_id = (c : Int))).map
        (cost (pass_fn t).clusters)
      = ((pass_fn t).points.filter fun q => decide (q.cluster_id = (c : Int))).map
        fun y => sq_dist y.values (recentre (Cluster.mk t.clusters[c].cluster_id
          t.clusters[c].centroid_point
          ((pass_fn t).points.filter fun q => decide (q.cluster_id = (c : Int))))).centroid_point := by
    apply List.map_congr_left
    intro y hy
    have hyc : y.cluster_id = (c : Int) := by simpa using (List.mem_filter.mp hy).2
    simp only [cost, hyc, idx?, Int.natCast_nonneg, if_true, Int.toNat_ofNat, ha']
  have e2 : ((pass_fn t).points.filter fun q => decide (q.cluster_id = (c : Int))).map
        (cost t.clusters)
      = ((pass_fn t).points.filter fun q => decide (q.cluster_id = (c : Int))).map
        fun y => sq_dist y.values t.clusters[c].centroid_point := by
    apply List.map_congr_left
    intro y hy
    have hyc : y.cluster_id = (c : Int) := by simpa using (List.mem_filter.mp hy).2
    simp only [cost, hyc, idx?, Int.natCast_nonneg, if_true, Int.toNat_ofNat, ha]
  rw [e1, e2]
  apply recentre_lowers_cost
  · intro y hy
    exact hC'.2.2.1 y (List.mem_filter.mp hy).1
  · exact hC.2.2.2 _ (List.getElem_mem hcl)

/-- After at least one pass from a consistent state every point has a cluster. -/
theorem passes_assigned (s0 : KMeanClustering) (hC : Consistent s0) (m : Nat)
    (t : KMeanClustering) (ht : passes (m + 1) s0 = some t) :
    ∀ x, x ∈ t.points → 0 ≤ x.cluster_id := by
  obtain ⟨u, r, hu, hr, hrs⟩ := passes_succ_some m s0 t ht
  obtain ⟨hCu, _⟩ := passes_consistent s0 hC m u hu
  rw [pass_eq u hCu] at hr
  simp only [Option.some.injEq] at hr
  subst hr
  subst hrs
  intro x hx
  simp only [pass_fn, List.mem_map] at hx
  obtain ⟨y, hy, rfl⟩ := hx
  obtain ⟨i, _, hin⟩ := consistent_nearest u hCu y (hCu.2.2.1 y hy)
  simp only [reassign, hin, Option.getD_some]
  omega

/-- C16: on two-coordinate input with `1 ≤ k ≤` number of points, for every pass number
`p ≥ 1` the states after `p` and after `p + 1` passes are defined, and the total
within-cluster squared distance (the sum over all points of the squared Euclidean
distance to the centroid of the cluster indexed by the point's `cluster_id`) after pass
`p + 1` is at most the one after pass `p`, in exact arithmetic. -/
theorem objective_monotone (k : Int) (input : List (String × List ℚ)) (hk : 1 ≤ k)
    (hkn : k ≤ (input.length : Int)) (hdim : ∀ r, r ∈ input → r.2.length = 2)
    (p : Nat) (hp : 1 ≤ p) :
    ∃ (s0 sp sq : KMeanClustering),
      init_clusters (engine_of_input k input) = some s0 ∧
      passes p s0 = some sp ∧ passes (p + 1) s0 = some sq ∧
      objective sq ≤ objective sp := by
  obtain ⟨s0, h0, hC0⟩ := init_consistent k input hk hkn hdim
  obtain ⟨sp, hsp, hCp⟩ := passes_defined s0 hC0 p
  obtain ⟨m, rfl⟩ : ∃ m, p = m + 1 := ⟨p - 1, by omega⟩
  refine ⟨s0, sp, pass_fn sp, h0, hsp, ?_, ?_⟩
  · have h : passes (m + 1 + 1) s0
        = (passes (m + 1) s0).bind fun t => (pass t).map Prod.fst := rfl
    rw [h, hsp]
    simp only [Option.some_bind, pass_eq sp hCp, Option.map_some']
  · exact pass_fn_objective_le sp hCp (passes_assigned s0 hC0 m sp hsp)

/-- C16 at a concrete input: the points `A`, `B`, `C`, `D` with `k = 2`; the objective is
`382/3` after the first pass and `1` after the second. -/
theorem objective_monotone_witness :
    (objective (KMeanClustering.mk 2 2
        [Point.mk "A" 0 [0, 0], Point.mk "B" 1 [1, 0], Point.mk "C" 1 [10, 10],
          Point.mk "D" 1 [11, 10]]
        [Cluster.mk 0 [0, 0] [Point.mk "A" 0 [0, 0]],
          Cluster.mk 1 [22 / 3, 20 / 3]
            [Point.mk "B" 1 [1, 0], Point.mk "C" 1 [10, 10], Point.mk "D" 1 [11, 10]]])
      = 382 / 3 ∧
     objective (KMeanClustering.mk 2 2
        [Point.mk "A" 0 [0, 0], Point.mk "B" 0 [1, 0], Point.mk "C" 1 [10, 10],
          Point.mk "D" 1 [11, 10]]
        [Cluster.mk 0 [1 / 2, 0] [Point.mk "A" 0 [0, 0], Point.mk "B" 0 [1, 0]],
          Cluster.mk 1 [21 / 2, 10] [Point.mk "C" 1 [10, 10], Point.mk "D" 1 [11, 10]]])
      = 1) ∧
    ∃ (s0 sp sq : KMeanClustering),
      init_clusters (engine_of_input 2
        [("A", [0, 0]), ("B", [1, 0]), ("C", [10, 10]), ("D", [11, 10])]) = some s0 ∧
      passes 1 s0 = some sp ∧ passes (1 + 1) s0 = some sq ∧
      objective sq ≤ objective sp :=
  ⟨by decide!,
   objective_monotone 2 [("A", [0, 0]), ("B", [1, 0]), ("C", [10, 10]), ("D", [11, 10])]
    (by decide) (by decide) (by decide) 1 (by decide)⟩

end KMeans
